import Mathlib

/-!
Verification of `qiskit/synthesis/arithmetic/dividers/long_division_divider.py`.

The source builds reversible circuits (lists of NOT / controlled-NOT /
doubly-controlled-NOT gates with optional control polarities) over registers of
qubits.  We embed a circuit as a `List Gate` over globally indexed wires and give
it an executable semantics on classical bit states packed into a `Nat`
(wire `i` is bit `i` of the state).  Register layouts follow the order in which
each Python function declares its registers: wires `0..N-1` are the first
register, `N..2N-1` the second, and so on.
-/

set_option maxRecDepth 10000

/-- An elementary circuit operation.  `x`, `cx`, `ccx` are the reversible gates
emitted by the source (`ccx` carries one polarity bit per control, `true`
meaning the gate fires when the control wire is 1, matching qiskit's
`ctrl_state`).  `reset` models qiskit's non-reversible `circuit.reset`.
`add`/`cadd` model the external `DraperQFTAdder(N, kind="fixed")` fragment and
its `.control()`: they are specified only by their arithmetic contract. -/
inductive Gate where
  | x (t : Nat)
  | cx (c t : Nat)
  | ccx (c1 : Nat) (p1 : Bool) (c2 : Nat) (p2 : Bool) (t : Nat)
  | reset (t : Nat)
  | add (aws bws : List Nat)
  | cadd (c : Nat) (aws bws : List Nat)
  deriving Repr, DecidableEq

/-- Flip bit `t` of the packed state. -/
def flipBit (s t : Nat) : Nat := s ^^^ (2 ^ t)

/-- Read the little-endian value held on the wire list `ws`. -/
def readBits : List Nat → Nat → Nat
  | [], _ => 0
  | w :: ws, s => (s.testBit w).toNat + 2 * readBits ws s

/-- Set bit `w` of `s` to `b`. -/
def setBit (s w : Nat) (b : Bool) : Nat := if s.testBit w = b then s else flipBit s w

/-- Write the little-endian value `v` onto the wire list `ws`. -/
def writeBits : List Nat → Nat → Nat → Nat
  | [], _, s => s
  | w :: ws, v, s => writeBits ws (v / 2) (setBit s w (v % 2 = 1))

/-- Classical semantics of one gate on a packed bit state. -/
def applyGate : Gate → Nat → Nat
  | .x t, s => flipBit s t
  | .cx c t, s => if s.testBit c then flipBit s t else s
  | .ccx c1 p1 c2 p2 t, s => if s.testBit c1 = p1 ∧ s.testBit c2 = p2 then flipBit s t else s
  | .reset t, s => setBit s t false
  | .add aws bws, s => writeBits bws ((readBits aws s + readBits bws s) % 2 ^ bws.length) s
  | .cadd c aws bws, s =>
      if s.testBit c then writeBits bws ((readBits aws s + readBits bws s) % 2 ^ bws.length) s
      else s

/-- Run a gate list on a packed bit state. -/
def applyGates (gs : List Gate) (s : Nat) : Nat := gs.foldl (fun s g => applyGate g s) s

/-- `revRange lo len = [lo+len-1, ..., lo+1, lo]`, the wire indices visited by a
Python `range(lo+len-1, lo-1, -1)` loop. -/
def revRange (lo len : Nat) : List Nat := (List.range' lo len).reverse

/-- Gate list of `adder(N)` (source lines 61-103).  Register layout:
`a[i] = i`, `b[i] = N+i`.  Each Python loop appears in source order. -/
def adderGates (N : Nat) : List Gate :=
  ((revRange 1 (N - 1)).map fun i => Gate.cx i (N + i)) ++
  ((revRange 1 (N - 2)).map fun i => Gate.cx i (i + 1)) ++
  ((List.range (N - 1)).map fun i => Gate.ccx i true (N + i) true (i + 1)) ++
  ((revRange 1 (N - 1)).map fun i =>
    [Gate.cx i (N + i), Gate.ccx (i - 1) true (N + i - 1) true i]).flatten ++
  [Gate.cx 0 N] ++
  ((List.range' 1 (N - 2)).map fun i => Gate.cx i (i + 1)) ++
  ((List.range' 1 (N - 1)).map fun i => Gate.cx i (N + i))

/-- Gate list of `ctrl_add(N)` (source lines 106-151).  Register layout:
`a[i] = i`, `b[i] = N+i`, `c = 2N`. -/
def ctrlAddGates (N : Nat) : List Gate :=
  ((revRange 1 (N - 1)).map fun i => Gate.cx i (N + i)) ++
  ((revRange 1 (N - 2)).map fun i => Gate.cx i (i + 1)) ++
  ((List.range (N - 1)).map fun i => Gate.ccx i true (N + i) true (i + 1)) ++
  ((revRange 1 (N - 1)).map fun i =>
    [Gate.ccx (2 * N) true i true (N + i), Gate.ccx (i - 1) true (N + i - 1) true i]).flatten ++
  [Gate.ccx (2 * N) true 0 true N] ++
  ((List.range' 1 (N - 2)).map fun i => Gate.cx i (i + 1)) ++
  ((List.range' 1 (N - 1)).map fun i => Gate.cx i (N + i))

/-- The chain wire addressed by the comparator's doubly-controlled gates:
`qr_aux[0]` for position `0`, `qr_aux[1]` for position `N-1`, `qr_b[j]`
in between (see the index selection at source lines 174-179). -/
def chainW (N j : Nat) : Nat :=
  if j = 0 then 2 * N else if j = N - 1 then 2 * N + 1 else N + j

/-- Gate list of `cmpr(N)` (source lines 154-197).  Register layout:
`a[i] = i`, `b[i] = N+i`, `aux[0] = 2N`, `aux[1] = 2N+1`.  qiskit's
`ctrl_state="01"` means the first control fires on 1 and the second on 0. -/
def cmprGates (N : Nat) : List Gate :=
  ((List.range N).map fun i => Gate.cx (N + i) i) ++
  [Gate.cx (N + 1) (2 * N)] ++
  ((List.range' 2 (N - 2)).map fun i => Gate.cx (N + i) (N + i - 1)) ++
  [Gate.cx (2 * N - 1) (2 * N + 1)] ++
  [Gate.ccx 0 true N true (2 * N)] ++
  ((List.range' 1 (N - 1)).map fun i => Gate.ccx (chainW N (i - 1)) true i false (chainW N i)) ++
  ((List.range' 1 (N - 2)).map fun i => Gate.ccx (chainW N (i - 1)) true i false (chainW N i)) ++
  [Gate.ccx 0 true N true (2 * N)] ++
  ((List.range' 2 (N - 2)).map fun i => Gate.cx (N + i) (N + i - 1)) ++
  [Gate.cx (N + 1) (2 * N)] ++
  ((List.range N).map fun i => Gate.cx (N + i) i)

/-- Remap a gate's local wire indices through the host wire list `ws`
(the semantics of `QuantumCircuit.append(fragment, ws)`). -/
def remapGate (ws : List Nat) : Gate → Gate
  | .x t => .x (ws.getD t 0)
  | .cx c t => .cx (ws.getD c 0) (ws.getD t 0)
  | .ccx c1 p1 c2 p2 t => .ccx (ws.getD c1 0) p1 (ws.getD c2 0) p2 (ws.getD t 0)
  | .reset t => .reset (ws.getD t 0)
  | .add aws bws => .add (aws.map fun w => ws.getD w 0) (bws.map fun w => ws.getD w 0)
  | .cadd c aws bws =>
      .cadd (ws.getD c 0) (aws.map fun w => ws.getD w 0) (bws.map fun w => ws.getD w 0)

/-- Remap a whole fragment onto host wires. -/
def remapGates (ws : List Nat) (gs : List Gate) : List Gate := gs.map (remapGate ws)

/-- Modelled from the spec: the external Fourier-transform adder fragment
`DraperQFTAdder(N, kind="fixed")` (not under `src/`): a drop-in fragment over
operand wires `0..N-1` and accumulator wires `N..2N-1` computing
`(a, b) -> (a, a+b mod 2^N)`. -/
def draperAdd (N : Nat) : List Gate := [Gate.add (List.range N) (List.range' N N)]

/-- Modelled from the spec: `DraperQFTAdder(N, kind="fixed").control()`, the same
fragment with one control wire prepended (control first, then operand
`1..N`, then accumulator `N+1..2N`). -/
def draperCAdd (N : Nat) : List Gate := [Gate.cadd 0 (List.range' 1 N) (List.range' (N + 1) N)]

/-- Host wires of register `b` in `long_division_divider` (`b[i] = N+i`). -/
def bWires (N : Nat) : List Nat := List.range' N N

/-- Host wires of register `a` in `long_division_divider` (`a[i] = i`). -/
def aWires (N : Nat) : List Nat := List.range N

/-- The sliding window `Y = qr_a[N-i:] + qr_r[:N-i]` of iteration `i`
(source line 251); `r[i] = 2N+i`. -/
def yWires (N i : Nat) : List Nat := List.range' (N - i) i ++ List.range' (2 * N) (N - i)

/-- One iteration `i ∈ {1..N-1}` of the loop in `long_division_divider`
(source lines 248-269). -/
def dividerIter (N : Nat) (draper : Bool) (i : Nat) : List Gate :=
  (yWires N i).map Gate.x ++
  (if draper then remapGates (bWires N ++ yWires N i) (draperAdd N)
   else remapGates (bWires N ++ yWires N i) (adderGates N)) ++
  (yWires N i).map Gate.x ++
  [Gate.cx ((yWires N i).getD (N - 1) 0) (2 * N + (N - i))] ++
  (if draper then remapGates ([2 * N + (N - i)] ++ bWires N ++ yWires N i) (draperCAdd N)
   else remapGates (bWires N ++ yWires N i ++ [2 * N + (N - i)]) (ctrlAddGates N)) ++
  [Gate.x (2 * N + (N - i))]

/-- The closing block of `long_division_divider` (source lines 271-286). -/
def dividerFinal (N : Nat) (draper : Bool) : List Gate :=
  (aWires N).map Gate.x ++
  (if draper then remapGates (bWires N ++ aWires N) (draperAdd N)
   else remapGates (bWires N ++ aWires N) (adderGates N)) ++
  (aWires N).map Gate.x ++
  [Gate.cx (N - 1) (2 * N)] ++
  (if draper then remapGates ([2 * N] ++ bWires N ++ aWires N) (draperCAdd N)
   else remapGates (bWires N ++ aWires N ++ [2 * N]) (ctrlAddGates N)) ++
  [Gate.x (2 * N)]

/-- Gate list of `long_division_divider(N, draper)` (source lines 200-288).
Register layout: `a[i] = i`, `b[i] = N+i`, `r[i] = 2N+i`. -/
def dividerGates (N : Nat) (draper : Bool) : List Gate :=
  ((List.range' 1 (N - 1)).map (dividerIter N draper)).flatten ++ dividerFinal N draper

/-- Failures raised while building a circuit: the explicit `ValueError` for a
divisor register wider than the dividend register, qiskit's `CircuitError` for a
register index out of range, and Python's `NameError` for an unbound name. -/
inductive Err where
  | invalidWidth
  | indexOutOfRange
  | nameError
  deriving Repr, DecidableEq

/-- The builder `adder(N)` with its dynamic failure: the unconditional
`circuit.cx(qr_a[0], qr_b[0])` at source line 89 indexes an empty register
exactly when `N = 0` (every loop bound is in range for `N ≥ 1`). -/
def adder (N : Nat) : Except Err (List Gate) :=
  if N = 0 then .error .indexOutOfRange else .ok (adderGates N)

/-- The builder `ctrl_add(N)` with its dynamic failure: the unconditional
`circuit.ccx(qr_c[0], qr_a[0], qr_b[0])` at source line 137 indexes an empty
register exactly when `N = 0`. -/
def ctrl_add (N : Nat) : Except Err (List Gate) :=
  if N = 0 then .error .indexOutOfRange else .ok (ctrlAddGates N)

/-- The builder `cmpr(N)` with its dynamic failure: `circuit.cx(qr_b[1],
qr_aux[0])` at source line 167 indexes `qr_b[1]` unconditionally, which is out
of range exactly when `N ≤ 1` (all other indices are in range for `N ≥ 2`). -/
def cmpr (N : Nat) : Except Err (List Gate) :=
  if N ≤ 1 then .error .indexOutOfRange else .ok (cmprGates N)

/-- `long_division_divider(N, draper)` with its dynamic failure: for `N = 0` the
call `adder(0)` at source line 242 (executed on both paths, before any gate is
appended) fails on `qr_a[0]`. -/
def long_division_divider (N : Nat) (draper : Bool) : Except Err (List Gate) :=
  if N = 0 then .error .indexOutOfRange else .ok (dividerGates N draper)

/-- The name `ctrl_sbt` called by `other_divider` (source lines 349-350) is not
defined anywhere in the source, so evaluating `ctrl_sbt(...)` raises a
`NameError` for every argument. -/
def ctrl_sbt (_N : Nat) : Except Err (List Gate) := .error .nameError

/-- Python list index resolution for a register of width `w`: a negative index
counts from the end. -/
def pyIdx (w : Nat) (j : Int) : Nat := if j < 0 then (w + j).toNat else j.toNat

/-- One iteration of the loop in `other_divider` (source lines 352-396), with
the fragments passed in.  Register layout: `d[i] = i`, `q[i] = nd+i`,
`s[i] = nd+nq+i`, `aux[i] = 2nd+1+i`.  The `break` at `i = nd-nq` drops the
unequal-width subtraction and the two `reset`s of that iteration. -/
def otherIter (nd nq : Nat) (cmp se su : List Gate) (i : Nat) : List Gate :=
  remapGates (List.range' (nd - nq - i) nq ++ List.range' nd nq ++ [2 * nd + 1, 2 * nd + 2]) cmp ++
  [Gate.x (2 * nd + 2),
   Gate.cx (2 * nd + 2) (nd + nq + (nd - nq - i))] ++
  remapGates (List.range' nd nq ++ List.range' (nd - nq - i) nq ++ [2 * nd + 2]) se ++
  [Gate.x (2 * nd + 2),
   Gate.ccx (nd - 1 - i) true (2 * nd + 2) true (2 * nd + 1),
   Gate.cx (nd - 1 - i) (nd + nq + pyIdx (nd - nq + 1) ((nd : Int) - nq - i - 1))] ++
  (if i = nd - nq then [] else
    remapGates
      (List.range' nd nq ++ [2 * nd + 3] ++ List.range' (nd - nq - i - 1) (nq + 1) ++ [2 * nd + 1])
      su ++
    [Gate.reset (2 * nd + 1), Gate.reset (2 * nd + 2)])

/-- The loop of `other_divider` over `i in range(nd - nq + 1)`. -/
def otherLoop (nd nq : Nat) (cmp se su : List Gate) : List Gate :=
  ((List.range (nd - nq + 1)).map (otherIter nd nq cmp se su)).flatten

/-- Body of `other_divider` after the width check (source lines 337-399): build
the comparator and the two subtractors, then the loop and the final
`circuit.x(qr_aux[1])`.  Since `ctrl_sbt` is unbound, this never reaches `.ok`. -/
def other_divider_core (nd nq : Nat) : Except Err (List Gate) := do
  let cmp ← cmpr nq
  let se ← ctrl_sbt nq
  let su ← ctrl_sbt (nq + 1)
  return otherLoop nd nq cmp se su ++ [Gate.x (2 * nd + 2)]

/-- `other_divider(num_dividend_qubits, num_divisor_qubits)` (source lines
291-399): a missing divisor width defaults to the dividend width, and an
explicit divisor width greater than the dividend width raises `ValueError`
before any register or gate is created (source lines 330-335). -/
def other_divider (nd : Nat) (nq? : Option Nat) : Except Err (List Gate) :=
  match nq? with
  | none => other_divider_core nd nd
  | some m => if nd < m then .error .invalidWidth else other_divider_core nd m

/-- Vectorized control value: the scenario-bit vector that is 1 in scenario `j`
exactly when the control with polarity `p` is satisfied there. -/
def polVal (mask : Nat) (p : Bool) (v : Nat) : Nat := if p then v else v ^^^ mask

/-- Bit-parallel semantics of the elementary gates: `V` assigns each wire a
vector of scenario bits, `mask` is all-ones over the scenario range. -/
def vApply (mask : Nat) : Gate → List Nat → List Nat
  | .x t, V => V.set t (V.getD t 0 ^^^ mask)
  | .cx c t, V => V.set t (V.getD t 0 ^^^ V.getD c 0)
  | .ccx c1 p1 c2 p2 t, V =>
      V.set t (V.getD t 0 ^^^ (polVal mask p1 (V.getD c1 0) &&& polVal mask p2 (V.getD c2 0)))
  | .reset t, V => V.set t 0
  | .add _ _, V => V
  | .cadd _ _ _, V => V

/-- Run a gate list in the bit-parallel semantics. -/
def vApplyGates (mask : Nat) (gs : List Gate) (V : List Nat) : List Nat :=
  gs.foldl (fun V g => vApply mask g V) V

/-- Scenario vector of `f` over `[lo, lo + 2^k)`, built with logarithmic
recursion depth. -/
def vecPow (f : Nat → Bool) (lo : Nat) : Nat → Nat
  | 0 => (f lo).toNat
  | k + 1 => vecPow f lo k + 2 ^ 2 ^ k * vecPow f (lo + 2 ^ k) k

/-- Wire-indexed list of scenario vectors for the packed states `f 0, ..,
`f (2^k - 1)` over wires `0..L-1`. -/
def scenVec (f : Nat → Nat) (L k : Nat) : List Nat :=
  (List.range L).map fun w => vecPow (fun j => (f j).testBit w) 0 k

/-- Test for the three elementary reversible gates of the source's gate set. -/
def elemB : Gate → Bool
  | .x _ => true
  | .cx _ _ => true
  | .ccx _ _ _ _ _ => true
  | _ => false

/-- The target wire of a gate (junk value for the multi-target externals). -/
def gTgt : Gate → Nat
  | .x t => t
  | .cx _ t => t
  | .ccx _ _ _ _ t => t
  | .reset t => t
  | .add _ _ => 0
  | .cadd _ _ _ => 0

/-- The control wires of a gate. -/
def gCtrls : Gate → List Nat
  | .x _ => []
  | .cx c _ => [c]
  | .ccx c1 _ c2 _ _ => [c1, c2]
  | .reset _ => []
  | .add _ _ => []
  | .cadd c _ _ => [c]

/-- Whether an elementary gate fires on state `s`. -/
def gFires : Gate → Nat → Bool
  | .x _, _ => true
  | .cx c _, s => s.testBit c
  | .ccx c1 p1 c2 p2 _, s => (s.testBit c1 == p1) && (s.testBit c2 == p2)
  | _, _ => false

/-- Bound check on a gate's target wire. -/
def tgtLtB (L : Nat) (g : Gate) : Bool := decide (gTgt g < L)

/-- A gate whose first control is positive (fires only if that wire is 1);
such gates fix the all-zero state. -/
def posCtrlB : Gate → Bool
  | .cx _ _ => true
  | .ccx _ p1 _ _ _ => p1
  | _ => false

/-- Well-formedness of an elementary gate: its target is none of its controls
(the self-inverse property needs this). -/
def wfB (g : Gate) : Bool := elemB g && !(gCtrls g).contains (gTgt g)

/-- Scenario count exponent for the width-`N` divider check: scenarios are
indexed by `j < 2^(2N-1)`, encoding dividend `j / 2^(N-1)` and divisor
`j % 2^(N-1) + 1`. -/
def c1d (N j : Nat) : Nat := j / 2 ^ (N - 1)

/-- Divisor of scenario `j` (ranges over `1..2^(N-1)`). -/
def c1q (N j : Nat) : Nat := j % 2 ^ (N - 1) + 1

/-- Packed input state of scenario `j`: dividend in `a`, divisor in `b`, `r`
cleared. -/
def c1inp (N j : Nat) : Nat := c1d N j + 2 ^ N * c1q N j

/-- Expected packed output state of scenario `j`: remainder in `a`, divisor in
`b`, quotient in `r`. -/
def c1out (N j : Nat) : Nat :=
  c1d N j % c1q N j + 2 ^ N * c1q N j + 2 ^ (2 * N) * (c1d N j / c1q N j)

/-- Initial scenario vectors of the width-`N` divider check. -/
def c1V (N : Nat) : List Nat := scenVec (c1inp N) (3 * N) (2 * N - 1)

/-- Expected final scenario vectors of the width-`N` divider check. -/
def c1E (N : Nat) : List Nat := scenVec (c1out N) (3 * N) (2 * N - 1)

/-- Carry bit entering position `i` of the addition `x + y`. -/
def carry (x y : Nat) : Nat → Bool
  | 0 => false
  | i + 1 =>
      (x.testBit i && y.testBit i) || (carry x y i && ((x.testBit i).xor (y.testBit i)))

/-- Exclusive or of the `n` state bits `lo, lo+1, .., lo+n-1`. -/
def xorRange (s lo : Nat) : Nat → Bool
  | 0 => false
  | n + 1 => (xorRange s lo n).xor (s.testBit (lo + n))

/-- Value of wire `k0 + i` after the ascending carry-ripple loop
`ccx a[k] b[k] a[k+1]` (`k` from `k0` up), as a function of the input state. -/
def p3chain (s N k0 : Nat) : Nat → Bool
  | 0 => s.testBit k0
  | i + 1 => (s.testBit (k0 + i + 1)).xor (p3chain s N k0 i && s.testBit (N + k0 + i))

/-- Bound check on all of a gate's wires (target and controls). -/
def wiresLtB (L : Nat) (g : Gate) : Bool :=
  decide (gTgt g < L) && (gCtrls g).all fun c => decide (c < L)

/-- The facts needed of every builder gate: well-formed, zero-fixing first
control, wires within the fragment width `L`. -/
def gateOkB (L : Nat) (g : Gate) : Bool := wfB g && posCtrlB g && wiresLtB L g

/-- Register `a` value of comparator scenario `j` (`j` packs `a = x`,
`b = y` as `x + 2^N*y`). -/
def c4x (N j : Nat) : Nat := j % 2 ^ N

/-- Register `b` value of comparator scenario `j`. -/
def c4y (N j : Nat) : Nat := j / 2 ^ N

/-- The comparison bit `[x < y]` of comparator scenario `j`. -/
def c4lt (N : Nat) (j : Nat) : Bool := decide (c4x N j < c4y N j)

/-- Expected final comparator state for widths 2 and 3: inputs restored and
ancilla bit 1 set to `[x < y]`. -/
def c4out (N j : Nat) : Nat := j + 2 ^ (2 * N + 1) * (c4lt N j).toNat

/-- Position of wire `j` in the host wire list (first match). -/
def wIdx : List Nat → Nat → Nat
  | [], _ => 0
  | w :: ws, j => if j = w then 0 else wIdx ws j + 1

/-! ### Basic semantics lemmas -/

theorem applyGates_nil (s : Nat) : applyGates [] s = s := rfl

theorem applyGates_cons (g : Gate) (gs : List Gate) (s : Nat) :
    applyGates (g :: gs) s = applyGates gs (applyGate g s) := rfl

theorem applyGates_append (gs1 gs2 : List Gate) (s : Nat) :
    applyGates (gs1 ++ gs2) s = applyGates gs2 (applyGates gs1 s) :=
  List.foldl_append _ _ _ _

theorem testBit_flipBit (s t j : Nat) :
    (flipBit s t).testBit j = ((s.testBit j).xor (decide (t = j))) := by
  simp [flipBit, Nat.testBit_xor, Nat.testBit_two_pow]

theorem testBit_applyGate_elem (g : Gate) (hel : elemB g = true) (s j : Nat) :
    (applyGate g s).testBit j =
      if gTgt g = j then (s.testBit j).xor (gFires g s) else s.testBit j := by
  cases g with
  | x t =>
      simp only [applyGate, gTgt, gFires, testBit_flipBit]
      by_cases h : t = j <;> simp [h]
  | cx c t =>
      simp only [applyGate, gTgt, gFires]
      by_cases hc : s.testBit c <;> by_cases h : t = j <;>
        simp [hc, h, testBit_flipBit]
  | ccx c1 p1 c2 p2 t =>
      simp only [applyGate, gTgt, gFires]
      by_cases hc : s.testBit c1 = p1 ∧ s.testBit c2 = p2 <;> by_cases h : t = j
      · simp [hc, h, testBit_flipBit, hc.1, hc.2]
      · simp [hc, h, testBit_flipBit, hc.1, hc.2]
      · have : ¬((s.testBit c1 == p1) && (s.testBit c2 == p2)) = true := by
          simp only [Bool.and_eq_true, beq_iff_eq]; exact hc
        simp [hc, h, this]
      · have : ¬((s.testBit c1 == p1) && (s.testBit c2 == p2)) = true := by
          simp only [Bool.and_eq_true, beq_iff_eq]; exact hc
        simp [hc, h, this]
  | reset t => simp [elemB] at hel
  | add aws bws => simp [elemB] at hel
  | cadd c aws bws => simp [elemB] at hel

theorem gTgt_preserved (g : Gate) (hel : elemB g = true) (s : Nat) {j : Nat}
    (h : gTgt g ≠ j) : (applyGate g s).testBit j = s.testBit j := by
  rw [testBit_applyGate_elem g hel, if_neg h]

/-! ### List helper lemmas -/

theorem getD_set_self (l : List Nat) (i v : Nat) (h : i < l.length) :
    (l.set i v).getD i 0 = v := by
  rw [List.getD_eq_getElem?_getD, List.getElem?_set_self h]
  rfl

theorem getD_set_ne (l : List Nat) {i j : Nat} (v : Nat) (h : i ≠ j) :
    (l.set i v).getD j 0 = l.getD j 0 := by
  rw [List.getD_eq_getElem?_getD, List.getElem?_set_ne h, ← List.getD_eq_getElem?_getD]

/-! ### Correspondence of the bit-parallel and packed semantics -/

theorem length_vApply (mask : Nat) (g : Gate) (V : List Nat) :
    (vApply mask g V).length = V.length := by
  cases g <;> simp [vApply]

theorem testBit_polVal (K : Nat) (p : Bool) (v : Nat) {j : Nat} (hj : j < K) :
    (polVal (2 ^ K - 1) p v).testBit j = (v.testBit j == p) := by
  cases p <;> simp [polVal, Nat.testBit_xor, Nat.testBit_two_pow_sub_one, hj]

theorem vCorr_apply (K : Nat) (g : Gate) (hel : elemB g = true) (V : List Nat)
    (ht : gTgt g < V.length) {j : Nat} (hj : j < K) (s : Nat)
    (h : ∀ w, s.testBit w = (V.getD w 0).testBit j) :
    ∀ w, (applyGate g s).testBit w = ((vApply (2 ^ K - 1) g V).getD w 0).testBit j := by
  intro w
  rw [testBit_applyGate_elem g hel]
  cases g with
  | x t =>
      simp only [gTgt] at ht ⊢
      simp only [vApply]
      by_cases hw : t = w
      · subst hw
        rw [if_pos rfl, getD_set_self _ _ _ ht, Nat.testBit_xor,
          Nat.testBit_two_pow_sub_one, h t]
        simp [gFires, hj]
      · rw [if_neg hw, getD_set_ne _ _ hw, h w]
  | cx c t =>
      simp only [gTgt] at ht ⊢
      simp only [vApply, gFires]
      by_cases hw : t = w
      · subst hw
        rw [if_pos rfl, getD_set_self _ _ _ ht, Nat.testBit_xor, h t, h c]
      · rw [if_neg hw, getD_set_ne _ _ hw, h w]
  | ccx c1 p1 c2 p2 t =>
      simp only [gTgt] at ht ⊢
      simp only [vApply, gFires]
      by_cases hw : t = w
      · subst hw
        rw [if_pos rfl, getD_set_self _ _ _ ht, Nat.testBit_xor, Nat.testBit_and,
          testBit_polVal K p1 _ hj, testBit_polVal K p2 _ hj, h t, ← h c1, ← h c2]
      · rw [if_neg hw, getD_set_ne _ _ hw, h w]
  | reset t => simp [elemB] at hel
  | add aws bws => simp [elemB] at hel
  | cadd c aws bws => simp [elemB] at hel

theorem vCorr_run (K : Nat) (gs : List Gate) (V : List Nat)
    (h1 : gs.all elemB = true) (h2 : gs.all (tgtLtB V.length) = true)
    {j : Nat} (hj : j < K) (s : Nat)
    (h : ∀ w, s.testBit w = (V.getD w 0).testBit j) :
    ∀ w, (applyGates gs s).testBit w = ((vApplyGates (2 ^ K - 1) gs V).getD w 0).testBit j := by
  induction gs generalizing V s with
  | nil => exact h
  | cons g gs ih =>
      simp only [List.all_cons, Bool.and_eq_true] at h1 h2
      have ht : gTgt g < V.length := by
        have := h2.1; simpa [tgtLtB] using this
      have hstep := vCorr_apply K g h1.1 V ht hj s h
      have hlen : (vApply (2 ^ K - 1) g V).length = V.length := length_vApply _ _ _
      have h2' : gs.all (tgtLtB (vApply (2 ^ K - 1) g V).length) = true := by
        rw [hlen]; exact h2.2
      exact ih (vApply (2 ^ K - 1) g V) h1.2 h2' (applyGate g s) hstep

/-! ### Scenario vectors -/

theorem vecPow_lt (f : Nat → Bool) (lo k : Nat) : vecPow f lo k < 2 ^ 2 ^ k := by
  induction k generalizing lo with
  | zero => cases h : f lo <;> simp [vecPow, h]
  | succ k ih =>
      have h1 := ih lo
      have h2 := ih (lo + 2 ^ k)
      have hpow : (2 : Nat) ^ 2 ^ (k + 1) = 2 ^ 2 ^ k * 2 ^ 2 ^ k := by
        rw [← pow_add]
        congr 1
        omega
      show vecPow f lo k + 2 ^ 2 ^ k * vecPow f (lo + 2 ^ k) k < 2 ^ 2 ^ (k + 1)
      rw [hpow]
      calc vecPow f lo k + 2 ^ 2 ^ k * vecPow f (lo + 2 ^ k) k
          < 2 ^ 2 ^ k * (1 + vecPow f (lo + 2 ^ k) k) := by
            rw [Nat.mul_add, Nat.mul_one]
            omega
        _ ≤ 2 ^ 2 ^ k * 2 ^ 2 ^ k := Nat.mul_le_mul_left _ (by omega)

theorem testBit_vecPow (f : Nat → Bool) (lo k : Nat) {j : Nat} (hj : j < 2 ^ k) :
    (vecPow f lo k).testBit j = f (lo + j) := by
  induction k generalizing lo j with
  | zero =>
      interval_cases j
      cases h : f lo <;> simp [vecPow, h]
  | succ k ih =>
      have hlow : vecPow f lo k < 2 ^ 2 ^ k := vecPow_lt f lo k
      have : vecPow f lo (k + 1) = vecPow f lo k + 2 ^ 2 ^ k * vecPow f (lo + 2 ^ k) k := rfl
      rw [this, Nat.add_comm (vecPow f lo k), Nat.testBit_mul_pow_two_add _ hlow]
      by_cases hcase : j < 2 ^ k
      · rw [if_pos hcase, ih lo hcase]
      · have hj2 : j - 2 ^ k < 2 ^ k := by
          have : 2 ^ (k + 1) = 2 ^ k + 2 ^ k := by ring
          omega
        rw [if_neg hcase, ih (lo + 2 ^ k) hj2]
        congr 1
        omega

theorem length_scenVec (f : Nat → Nat) (L k : Nat) : (scenVec f L k).length = L := by
  simp [scenVec]

theorem getD_scenVec (f : Nat → Nat) (L k : Nat) {w : Nat} (hw : w < L) :
    (scenVec f L k).getD w 0 = vecPow (fun j => (f j).testBit w) 0 k := by
  simp [scenVec, List.getD_eq_getElem?_getD, List.getElem?_map, List.getElem?_range, hw]

theorem scenVec_corr (f : Nat → Nat) (L k : Nat) {j : Nat} (hj : j < 2 ^ k)
    (hf : f j < 2 ^ L) :
    ∀ w, (f j).testBit w = ((scenVec f L k).getD w 0).testBit j := by
  intro w
  by_cases hw : w < L
  · rw [getD_scenVec f L k hw, testBit_vecPow _ _ _ hj, Nat.zero_add]
  · rw [List.getD_eq_default _ _ (by rw [length_scenVec]; omega)]
    simp only [Nat.zero_testBit]
    exact Nat.testBit_lt_two_pow
      (lt_of_lt_of_le hf (Nat.pow_le_pow_right (by norm_num) (by omega)))

/-- Bridge: a decided equality of scenario-vector runs yields, for each
scenario, the packed-state equation. -/
theorem vec_bridge (gs : List Gate) (k L : Nat) (inp out : Nat → Nat)
    (h1 : gs.all elemB = true) (h2 : gs.all (tgtLtB L) = true)
    (hrun : vApplyGates (2 ^ 2 ^ k - 1) gs (scenVec inp L k) = scenVec out L k)
    (j : Nat) (hj : j < 2 ^ k) (hin : inp j < 2 ^ L) (hout : out j < 2 ^ L) :
    applyGates gs (inp j) = out j := by
  have h2' : gs.all (tgtLtB (scenVec inp L k).length) = true := by
    rw [length_scenVec]; exact h2
  have hfin := vCorr_run (2 ^ k) gs (scenVec inp L k) h1 h2' hj (inp j)
    (scenVec_corr inp L k hj hin)
  rw [hrun] at hfin
  refine Nat.eq_of_testBit_eq fun w => ?_
  rw [hfin w, scenVec_corr out L k hj hout w]

/-! ### C1: the long-division divider, widths 2..6 -/

set_option exponentiation.threshold 5000

set_option maxHeartbeats 1000000 in
theorem c1run2 :
    vApplyGates (2 ^ 2 ^ 3 - 1) (dividerGates 2 false) (scenVec (c1inp 2) 6 3) =
      scenVec (c1out 2) 6 3 := by decide

set_option maxHeartbeats 1000000 in
theorem c1run3 :
    vApplyGates (2 ^ 2 ^ 5 - 1) (dividerGates 3 false) (scenVec (c1inp 3) 9 5) =
      scenVec (c1out 3) 9 5 := by decide

set_option maxHeartbeats 1000000 in
theorem c1run4 :
    vApplyGates (2 ^ 2 ^ 7 - 1) (dividerGates 4 false) (scenVec (c1inp 4) 12 7) =
      scenVec (c1out 4) 12 7 := by decide

set_option maxHeartbeats 2000000 in
theorem c1run5 :
    vApplyGates (2 ^ 2 ^ 9 - 1) (dividerGates 5 false) (scenVec (c1inp 5) 15 9) =
      scenVec (c1out 5) 15 9 := by decide

set_option maxHeartbeats 4000000 in
theorem c1run6 :
    vApplyGates (2 ^ 2 ^ 11 - 1) (dividerGates 6 false) (scenVec (c1inp 6) 18 11) =
      scenVec (c1out 6) 18 11 := by decide

theorem c1elem :
    ((dividerGates 2 false).all elemB && (dividerGates 3 false).all elemB &&
     (dividerGates 4 false).all elemB && (dividerGates 5 false).all elemB &&
     (dividerGates 6 false).all elemB) = true := by decide

theorem c1tgt :
    ((dividerGates 2 false).all (tgtLtB 6) && (dividerGates 3 false).all (tgtLtB 9) &&
     (dividerGates 4 false).all (tgtLtB 12) && (dividerGates 5 false).all (tgtLtB 15) &&
     (dividerGates 6 false).all (tgtLtB 18)) = true := by decide

/-- C1 (amended): for widths `N ∈ {2..6}`, every dividend `d < 2^N` and every
nonzero divisor `q ≤ 2^(N-1)` loaded into the registers (`a = d`, `b = q`,
`r = 0`), the ripple-carry long-division circuit produces `a = d % q`
(`0 ≤ remainder < q`), leaves `b = q`, and writes the quotient bits into the
`r` register, so `d = quotient * q + remainder`.  (The claim's divisor range
`0 < q < 2^N` fails: for `2^(N-1) < q` the borrow test reads the wrong sign
bit; and the remainder is left in `a`, not in `r`.) -/
theorem c1_divider_correct :
    ∀ N, 2 ≤ N → N ≤ 6 → ∀ d, d < 2 ^ N → ∀ q, 0 < q → q ≤ 2 ^ (N - 1) →
      applyGates (dividerGates N false) (d + 2 ^ N * q) =
        d % q + 2 ^ N * q + 2 ^ (2 * N) * (d / q) := by
  intro N hN2 hN6 d hd q hq0 hq
  have hmod : d % q < q := Nat.mod_lt _ hq0
  have hmod' : d % q ≤ d := Nat.mod_le _ _
  have hdiv : d / q ≤ d := Nat.div_le_self _ _
  interval_cases N
  · -- N = 2
    norm_num at hd hq
    have h1 : (dividerGates 2 false).all elemB = true := by
      have := c1elem; simp only [Bool.and_eq_true] at this; exact this.1.1.1.1
    have h2 : (dividerGates 2 false).all (tgtLtB 6) = true := by
      have := c1tgt; simp only [Bool.and_eq_true] at this; exact this.1.1.1.1
    have key := vec_bridge (dividerGates 2 false) 3 6 (c1inp 2) (c1out 2) h1 h2 c1run2
      (d * 2 + (q - 1)) (by norm_num; omega)
    have hdj : c1d 2 (d * 2 + (q - 1)) = d := by simp only [c1d]; norm_num; omega
    have hqj : c1q 2 (d * 2 + (q - 1)) = q := by simp only [c1q]; norm_num; omega
    rw [c1inp, c1out, hdj, hqj] at key
    exact key (by norm_num; omega) (by norm_num; omega)
  · -- N = 3
    norm_num at hd hq
    have h1 : (dividerGates 3 false).all elemB = true := by
      have := c1elem; simp only [Bool.and_eq_true] at this; exact this.1.1.1.2
    have h2 : (dividerGates 3 false).all (tgtLtB 9) = true := by
      have := c1tgt; simp only [Bool.and_eq_true] at this; exact this.1.1.1.2
    have key := vec_bridge (dividerGates 3 false) 5 9 (c1inp 3) (c1out 3) h1 h2 c1run3
      (d * 4 + (q - 1)) (by norm_num; omega)
    have hdj : c1d 3 (d * 4 + (q - 1)) = d := by simp only [c1d]; norm_num; omega
    have hqj : c1q 3 (d * 4 + (q - 1)) = q := by simp only [c1q]; norm_num; omega
    rw [c1inp, c1out, hdj, hqj] at key
    exact key (by norm_num; omega) (by norm_num; omega)
  · -- N = 4
    norm_num at hd hq
    have h1 : (dividerGates 4 false).all elemB = true := by
      have := c1elem; simp only [Bool.and_eq_true] at this; exact this.1.1.2
    have h2 : (dividerGates 4 false).all (tgtLtB 12) = true := by
      have := c1tgt; simp only [Bool.and_eq_true] at this; exact this.1.1.2
    have key := vec_bridge (dividerGates 4 false) 7 12 (c1inp 4) (c1out 4) h1 h2 c1run4
      (d * 8 + (q - 1)) (by norm_num; omega)
    have hdj : c1d 4 (d * 8 + (q - 1)) = d := by simp only [c1d]; norm_num; omega
    have hqj : c1q 4 (d * 8 + (q - 1)) = q := by simp only [c1q]; norm_num; omega
    rw [c1inp, c1out, hdj, hqj] at key
    exact key (by norm_num; omega) (by norm_num; omega)
  · -- N = 5
    norm_num at hd hq
    have h1 : (dividerGates 5 false).all elemB = true := by
      have := c1elem; simp only [Bool.and_eq_true] at this; exact this.1.2
    have h2 : (dividerGates 5 false).all (tgtLtB 15) = true := by
      have := c1tgt; simp only [Bool.and_eq_true] at this; exact this.1.2
    have key := vec_bridge (dividerGates 5 false) 9 15 (c1inp 5) (c1out 5) h1 h2 c1run5
      (d * 16 + (q - 1)) (by norm_num; omega)
    have hdj : c1d 5 (d * 16 + (q - 1)) = d := by simp only [c1d]; norm_num; omega
    have hqj : c1q 5 (d * 16 + (q - 1)) = q := by simp only [c1q]; norm_num; omega
    rw [c1inp, c1out, hdj, hqj] at key
    exact key (by norm_num; omega) (by norm_num; omega)
  · -- N = 6
    norm_num at hd hq
    have h1 : (dividerGates 6 false).all elemB = true := by
      have := c1elem; simp only [Bool.and_eq_true] at this; exact this.2
    have h2 : (dividerGates 6 false).all (tgtLtB 18) = true := by
      have := c1tgt; simp only [Bool.and_eq_true] at this; exact this.2
    have key := vec_bridge (dividerGates 6 false) 11 18 (c1inp 6) (c1out 6) h1 h2 c1run6
      (d * 32 + (q - 1)) (by norm_num; omega)
    have hdj : c1d 6 (d * 32 + (q - 1)) = d := by simp only [c1d]; norm_num; omega
    have hqj : c1q 6 (d * 32 + (q - 1)) = q := by simp only [c1q]; norm_num; omega
    rw [c1inp, c1out, hdj, hqj] at key
    exact key (by norm_num; omega) (by norm_num; omega)

/-- C1 counterexample: at width `N = 2` with dividend `d = 0` and nonzero
divisor `q = 3` the produced circuit does not perform division: division forces
quotient = remainder = 0, yet the final state is `a = 2`, `b = 3`, `r = 2`
(packed: `2 + 2^2*3 + 2^4*2 = 46`), so neither `r` nor any other register holds
the quotient/remainder pair. -/
theorem c1_counterexample :
    applyGates (dividerGates 2 false) (0 + 2 ^ 2 * 3) = 2 + 2 ^ 2 * 3 + 2 ^ 4 * 2 := by decide

/-- C1 witness: the amended theorem applied at `N = 4`, `d = 10`, `q = 3`
(the spec's own example: 10 = 3*3 + 1). -/
theorem c1_divider_correct_witness :
    applyGates (dividerGates 4 false) (10 + 2 ^ 4 * 3) =
      10 % 3 + 2 ^ 4 * 3 + 2 ^ (2 * 4) * (10 / 3) :=
  c1_divider_correct 4 (by norm_num) (by norm_num) 10 (by norm_num) 3 (by norm_num) (by norm_num)

/-! ### C5, C6, C10: builder and orchestrator error behavior -/

theorem other_divider_core_error (nd nq : Nat) :
    other_divider_core nd nq =
      .error (if nq ≤ 1 then Err.indexOutOfRange else Err.nameError) := by
  by_cases h : nq ≤ 1
  · simp only [other_divider_core, cmpr, ctrl_sbt, if_pos h]
    rfl
  · simp only [other_divider_core, cmpr, ctrl_sbt, if_neg h]
    rfl

theorem other_divider_never_ok (nd : Nat) (nq? : Option Nat) :
    ∃ e, other_divider nd nq? = .error e := by
  match nq? with
  | none => exact ⟨_, other_divider_core_error nd nd⟩
  | some m =>
      by_cases h : nd < m
      · exact ⟨.invalidWidth, by simp [other_divider, h]⟩
      · exact ⟨_, by simp only [other_divider, if_neg h]; exact other_divider_core_error nd m⟩

/-- C5: calling `other_divider` with a divisor width strictly greater than the
dividend width fails with the invalid-width error; the check precedes register
creation and gate construction (source lines 330-335), so no partial circuit
exists. -/
theorem c5_width_check : ∀ nd m, nd < m → other_divider nd (some m) = .error .invalidWidth := by
  intro nd m h
  simp [other_divider, h]

/-- C5 witness: dividend width 2, divisor width 3. -/
theorem c5_width_check_witness : other_divider 2 (some 3) = .error .invalidWidth :=
  c5_width_check 2 3 (by norm_num)

/-- C6 counterexample: `cmpr` is not total over widths ≥ 1: `cmpr(1)` fails
(the unconditional `qr_b[1]` at source line 167 is out of range), where the
claim asserts success for every width ≥ 1. -/
theorem c6_counterexample : cmpr 1 = .error .indexOutOfRange := rfl

/-- C6 (amended): of the five named builders only `adder`, `ctrl_add` and
`cmpr` exist.  `adder` and `ctrl_add` return a circuit for every width ≥ 1 and
fail with a register-index error at width 0; `cmpr` returns a circuit for every
width ≥ 2 and fails with a register-index error at widths 0 and 1.  The
subtractor builders (`ctrl_eql_sbt` / `ctrl_uneql_sbt`) are not defined in the
source: the name `ctrl_sbt` that `other_divider` calls is unbound, so every
call fails with a missing-name error. -/
theorem c6_builders :
    (∀ N, 1 ≤ N → adder N = .ok (adderGates N)) ∧
    adder 0 = .error .indexOutOfRange ∧
    (∀ N, 1 ≤ N → ctrl_add N = .ok (ctrlAddGates N)) ∧
    ctrl_add 0 = .error .indexOutOfRange ∧
    (∀ N, 2 ≤ N → cmpr N = .ok (cmprGates N)) ∧
    cmpr 0 = .error .indexOutOfRange ∧
    cmpr 1 = .error .indexOutOfRange ∧
    (∀ N, ctrl_sbt N = .error .nameError) := by
  refine ⟨fun N h => ?_, rfl, fun N h => ?_, rfl, fun N h => ?_, rfl, rfl, fun N => rfl⟩
  · rw [adder, if_neg (by omega)]
  · rw [ctrl_add, if_neg (by omega)]
  · rw [cmpr, if_neg (by omega)]

/-- C6 witness: the amended theorem applied at widths 1 and 2. -/
theorem c6_builders_witness :
    adder 1 = .ok (adderGates 1) ∧ ctrl_add 1 = .ok (ctrlAddGates 1) ∧
      cmpr 2 = .ok (cmprGates 2) :=
  ⟨c6_builders.1 1 (by norm_num), c6_builders.2.2.1 1 (by norm_num),
    c6_builders.2.2.2.2.1 2 (by norm_num)⟩

/-- C10 counterexample: at dividend width 1 and divisor width 1 the failure is
not a missing-name error: the comparator builder fails first on the
out-of-range register index `qr_b[1]`, before `ctrl_sbt` is ever evaluated. -/
theorem c10_counterexample :
    other_divider 1 (some 1) = .error .indexOutOfRange ∧
      Err.indexOutOfRange ≠ Err.nameError := ⟨rfl, by decide⟩

/-- C10 (amended): for every valid width pair (`1 ≤ M ≤ N`), `other_divider`
fails before returning — with the missing-name error for `M ≥ 2` (the unbound
`ctrl_sbt`), and with the comparator's register-index error for `M = 1` — so it
never successfully returns a circuit. -/
theorem c10_other_divider_fails : ∀ nd m, 1 ≤ m → m ≤ nd →
    other_divider nd (some m) =
      .error (if m ≤ 1 then Err.indexOutOfRange else Err.nameError) := by
  intro nd m h1 h2
  simp only [other_divider, if_neg (by omega : ¬nd < m)]
  exact other_divider_core_error nd m

/-- C10 witness: the amended theorem applied at widths (3, 2): the failure is
the missing-name error. -/
theorem c10_other_divider_fails_witness :
    other_divider 3 (some 2) = .error Err.nameError := by
  have h := c10_other_divider_fails 3 2 (by norm_num) (by norm_num)
  simpa using h

/-! ### Bits of a sum: ripple-carry arithmetic -/

theorem mod_pow_succ_testBit (x i : Nat) :
    x % 2 ^ (i + 1) = x % 2 ^ i + 2 ^ i * (x.testBit i).toNat := by
  rw [Nat.mod_pow_succ]
  congr 1
  have h2 : x / 2 ^ i % 2 = 0 ∨ x / 2 ^ i % 2 = 1 := by omega
  rcases h2 with h | h <;> simp [Nat.testBit_to_div_mod, h]

theorem mod_double_reduce (P u m : Nat) (hu : u < P) :
    (u + P * m) % (2 * P) = u + P * (m % 2) := by
  have hsplit : u + P * m = u + P * (m % 2) + (2 * P) * (m / 2) := by
    conv_lhs => rw [← Nat.mod_add_div m 2]
    ring
  rw [hsplit, Nat.add_mul_mod_self_left]
  apply Nat.mod_eq_of_lt
  have h2 : m % 2 ≤ 1 := by omega
  have h3 : P * (m % 2) ≤ P * 1 := Nat.mul_le_mul_left _ h2
  omega

theorem carry_toNat_step (x y i : Nat) :
    (carry x y (i + 1)).toNat * 2 +
        ((carry x y i).toNat + (x.testBit i).toNat + (y.testBit i).toNat) % 2 =
      (carry x y i).toNat + (x.testBit i).toNat + (y.testBit i).toNat := by
  cases hA : x.testBit i <;> cases hB : y.testBit i <;> cases hC : carry x y i <;>
    simp [carry, hA, hB, hC]

theorem carry_spec (x y : Nat) :
    ∀ i, x % 2 ^ i + y % 2 ^ i = (x + y) % 2 ^ i + 2 ^ i * (carry x y i).toNat := by
  intro i
  induction i with
  | zero => simp [carry, Nat.mod_one]
  | succ i ih =>
      have hPpos : 0 < 2 ^ i := Nat.pos_pow_of_pos _ (by norm_num)
      have hub : (x + y) % 2 ^ i < 2 ^ i := Nat.mod_lt _ hPpos
      have hpow : (2 : Nat) ^ (i + 1) = 2 * 2 ^ i := by rw [pow_succ]; ring
      have e3 : x % 2 ^ (i + 1) + y % 2 ^ (i + 1)
          = (x + y) % 2 ^ i +
              2 ^ i * ((carry x y i).toNat + (x.testBit i).toNat + (y.testBit i).toNat) := by
        calc x % 2 ^ (i + 1) + y % 2 ^ (i + 1)
            = (x % 2 ^ i + y % 2 ^ i) +
                2 ^ i * ((x.testBit i).toNat + (y.testBit i).toNat) := by
              rw [mod_pow_succ_testBit x i, mod_pow_succ_testBit y i]; ring
          _ = ((x + y) % 2 ^ i + 2 ^ i * (carry x y i).toNat) +
                2 ^ i * ((x.testBit i).toNat + (y.testBit i).toNat) := by rw [ih]
          _ = (x + y) % 2 ^ i +
                2 ^ i * ((carry x y i).toNat + (x.testBit i).toNat + (y.testBit i).toNat) := by
              ring
      have e4 : ((x + y) % 2 ^ i +
            2 ^ i * ((carry x y i).toNat + (x.testBit i).toNat + (y.testBit i).toNat)) %
              2 ^ (i + 1)
          = (x + y) % 2 ^ i +
              2 ^ i *
                (((carry x y i).toNat + (x.testBit i).toNat + (y.testBit i).toNat) % 2) := by
        rw [hpow]
        exact mod_double_reduce _ _ _ hub
      have e2 := Nat.add_mod x y (2 ^ (i + 1))
      rw [e3, e4] at e2
      rw [e3, e2]
      have hC := carry_toNat_step x y i
      have hm2 : (carry x y i).toNat + (x.testBit i).toNat + (y.testBit i).toNat
          = 2 * (carry x y (i + 1)).toNat +
              ((carry x y i).toNat + (x.testBit i).toNat + (y.testBit i).toNat) % 2 := by
        omega
      calc (x + y) % 2 ^ i +
            2 ^ i * ((carry x y i).toNat + (x.testBit i).toNat + (y.testBit i).toNat)
          = (x + y) % 2 ^ i +
              2 ^ i * (2 * (carry x y (i + 1)).toNat +
                ((carry x y i).toNat + (x.testBit i).toNat + (y.testBit i).toNat) % 2) := by
            rw [← hm2]
        _ = (x + y) % 2 ^ i +
              2 ^ i *
                (((carry x y i).toNat + (x.testBit i).toNat + (y.testBit i).toNat) % 2) +
              2 ^ (i + 1) * (carry x y (i + 1)).toNat := by
            rw [hpow]; ring

theorem sum_mod_succ (x y i : Nat) :
    (x + y) % 2 ^ (i + 1) =
      (x + y) % 2 ^ i +
        2 ^ i * (((carry x y i).toNat + (x.testBit i).toNat + (y.testBit i).toNat) % 2) := by
  have hPpos : 0 < 2 ^ i := Nat.pos_pow_of_pos _ (by norm_num)
  have hub : (x + y) % 2 ^ i < 2 ^ i := Nat.mod_lt _ hPpos
  have hpow : (2 : Nat) ^ (i + 1) = 2 * 2 ^ i := by rw [pow_succ]; ring
  have e3 : x % 2 ^ (i + 1) + y % 2 ^ (i + 1)
      = (x + y) % 2 ^ i +
          2 ^ i * ((carry x y i).toNat + (x.testBit i).toNat + (y.testBit i).toNat) := by
    calc x % 2 ^ (i + 1) + y % 2 ^ (i + 1)
        = (x % 2 ^ i + y % 2 ^ i) + 2 ^ i * ((x.testBit i).toNat + (y.testBit i).toNat) := by
          rw [mod_pow_succ_testBit x i, mod_pow_succ_testBit y i]; ring
      _ = ((x + y) % 2 ^ i + 2 ^ i * (carry x y i).toNat) +
            2 ^ i * ((x.testBit i).toNat + (y.testBit i).toNat) := by rw [carry_spec]
      _ = (x + y) % 2 ^ i +
            2 ^ i * ((carry x y i).toNat + (x.testBit i).toNat + (y.testBit i).toNat) := by
          ring
  have e2 := Nat.add_mod x y (2 ^ (i + 1))
  rw [e3] at e2
  rw [e2, hpow]
  exact mod_double_reduce _ _ _ hub

theorem testBit_add_carry (x y i : Nat) :
    (x + y).testBit i = ((x.testBit i).xor ((y.testBit i).xor (carry x y i))) := by
  have hPpos : 0 < 2 ^ i := Nat.pos_pow_of_pos _ (by norm_num)
  have hs := mod_pow_succ_testBit (x + y) i
  have hm := sum_mod_succ x y i
  have hval : ((x + y).testBit i).toNat =
      ((carry x y i).toNat + (x.testBit i).toNat + (y.testBit i).toNat) % 2 := by
    have h1 := hs.symm.trans hm
    have h2 := Nat.add_left_cancel h1
    exact Nat.eq_of_mul_eq_mul_left hPpos h2
  cases hA : x.testBit i <;> cases hB : y.testBit i <;> cases hC : carry x y i <;>
    cases hS : (x + y).testBit i <;>
    simp only [hA, hB, hC, hS, Bool.toNat_true, Bool.toNat_false] at hval ⊢ <;>
    first
      | rfl
      | omega

theorem testBit_pack2 (N x : Nat) (hx : x < 2 ^ N) (y j : Nat) :
    (x + 2 ^ N * y).testBit j = if j < N then x.testBit j else y.testBit (j - N) := by
  rw [Nat.add_comm, Nat.testBit_mul_pow_two_add _ hx]

/-! ### Per-gate bit formulas -/

theorem testBit_applyGate_x (t s j : Nat) :
    (applyGate (Gate.x t) s).testBit j =
      if t = j then !(s.testBit j) else s.testBit j := by
  have := testBit_applyGate_elem (Gate.x t) rfl s j
  simp only [gTgt, gFires] at this
  rw [this]
  by_cases h : t = j <;> simp [h]

theorem testBit_applyGate_cx (c t s j : Nat) :
    (applyGate (Gate.cx c t) s).testBit j =
      if t = j then (s.testBit j).xor (s.testBit c) else s.testBit j := by
  have := testBit_applyGate_elem (Gate.cx c t) rfl s j
  simp only [gTgt, gFires] at this
  exact this

theorem testBit_applyGate_ccx (c1 c2 t s : Nat) (p1 p2 : Bool) (j : Nat) :
    (applyGate (Gate.ccx c1 p1 c2 p2 t) s).testBit j =
      if t = j then (s.testBit j).xor ((s.testBit c1 == p1) && (s.testBit c2 == p2))
      else s.testBit j := by
  have := testBit_applyGate_elem (Gate.ccx c1 p1 c2 p2 t) rfl s j
  simp only [gTgt, gFires] at this
  exact this

theorem revRange_succ (lo len : Nat) :
    revRange lo (len + 1) = (lo + len) :: revRange lo len := by
  simp [revRange, List.range'_concat]

theorem revRange_zero (lo : Nat) : revRange lo 0 = [] := rfl

/-! ### Phase semantics of the ripple-carry adder -/

theorem p1_sem (N len : Nat) (s : Nat) :
    ∀ j, (applyGates ((revRange 1 len).map fun i => Gate.cx i (N + i)) s).testBit j =
      if N + 1 ≤ j ∧ j ≤ N + len then (s.testBit j).xor (s.testBit (j - N))
      else s.testBit j := by
  induction len generalizing s with
  | zero =>
      intro j
      rw [revRange_zero]
      simp only [List.map_nil, applyGates_nil]
      rw [if_neg (by omega)]
  | succ len ih =>
      intro j
      rw [revRange_succ, List.map_cons, applyGates_cons, ih]
      by_cases h1 : N + 1 ≤ j ∧ j ≤ N + len
      · rw [if_pos h1, if_pos (by omega), testBit_applyGate_cx, testBit_applyGate_cx,
          if_neg (by omega), if_neg (by omega)]
      · rw [if_neg h1]
        by_cases h2 : j = N + (1 + len)
        · rw [testBit_applyGate_cx, if_pos h2.symm, if_pos (by omega)]
          have he : j - N = 1 + len := by omega
          rw [he]
        · rw [testBit_applyGate_cx, if_neg (fun hh => h2 hh.symm), if_neg (by omega)]

theorem p2_sem (len : Nat) (s : Nat) :
    ∀ j, (applyGates ((revRange 1 len).map fun i => Gate.cx i (i + 1)) s).testBit j =
      if 2 ≤ j ∧ j ≤ len + 1 then (s.testBit j).xor (s.testBit (j - 1))
      else s.testBit j := by
  induction len generalizing s with
  | zero =>
      intro j
      rw [revRange_zero]
      simp only [List.map_nil, applyGates_nil]
      rw [if_neg (by omega)]
  | succ len ih =>
      intro j
      rw [revRange_succ, List.map_cons, applyGates_cons, ih]
      by_cases h1 : 2 ≤ j ∧ j ≤ len + 1
      · rw [if_pos h1, if_pos (by omega), testBit_applyGate_cx, testBit_applyGate_cx,
          if_neg (by omega), if_neg (by omega)]
      · rw [if_neg h1]
        by_cases h2 : j = 1 + len + 1
        · rw [testBit_applyGate_cx, if_pos h2.symm, if_pos (by omega)]
          have he : j - 1 = 1 + len := by omega
          rw [he]
        · rw [testBit_applyGate_cx, if_neg (fun hh => h2 hh.symm), if_neg (by omega)]

theorem p7_sem (N : Nat) : ∀ (lo len : Nat), lo + len ≤ N → ∀ (s : Nat),
    ∀ j, (applyGates ((List.range' lo len).map fun i => Gate.cx i (N + i)) s).testBit j =
      if N + lo ≤ j ∧ j < N + lo + len then (s.testBit j).xor (s.testBit (j - N))
      else s.testBit j := by
  intro lo len
  induction len generalizing lo with
  | zero =>
      intro _ s j
      simp only [List.range', List.map_nil, applyGates_nil]
      rw [if_neg (by omega)]
  | succ len ih =>
      intro hlen s j
      rw [List.range'_succ, List.map_cons, applyGates_cons, ih (lo + 1) (by omega)]
      by_cases h1 : N + (lo + 1) ≤ j ∧ j < N + (lo + 1) + len
      · rw [if_pos h1, if_pos (by omega), testBit_applyGate_cx, testBit_applyGate_cx,
          if_neg (by omega), if_neg (by omega)]
      · rw [if_neg h1]
        by_cases h2 : j = N + lo
        · rw [testBit_applyGate_cx, if_pos h2.symm, if_pos (by omega)]
          have he : j - N = lo := by omega
          rw [he]
        · rw [testBit_applyGate_cx, if_neg (fun hh => h2 hh.symm), if_neg (by omega)]

theorem xorRange_shift (s lo : Nat) :
    ∀ m, 1 ≤ m →
      xorRange (applyGate (Gate.cx lo (lo + 1)) s) (lo + 1) m = xorRange s lo (m + 1) := by
  intro m
  induction m with
  | zero => omega
  | succ m ih =>
      intro _
      by_cases hm : 1 ≤ m
      · show (xorRange (applyGate (Gate.cx lo (lo + 1)) s) (lo + 1) m).xor _ = _
        rw [ih hm, testBit_applyGate_cx, if_neg (by omega)]
        have he : lo + 1 + m = lo + (m + 1) := by omega
        rw [he]
        rfl
      · have hm0 : m = 0 := by omega
        subst hm0
        show (xorRange _ (lo + 1) 0).xor ((applyGate (Gate.cx lo (lo + 1)) s).testBit (lo + 1 + 0))
            = (xorRange s lo 1).xor (s.testBit (lo + 1))
        rw [testBit_applyGate_cx, if_pos (by omega)]
        simp [xorRange, Bool.xor_comm]

theorem p6_sem : ∀ (lo len : Nat) (s : Nat),
    ∀ j, (applyGates ((List.range' lo len).map fun i => Gate.cx i (i + 1)) s).testBit j =
      if lo + 1 ≤ j ∧ j ≤ lo + len then xorRange s lo (j - lo + 1) else s.testBit j := by
  intro lo len
  induction len generalizing lo with
  | zero =>
      intro s j
      simp only [List.range', List.map_nil, applyGates_nil]
      rw [if_neg (by omega)]
  | succ len ih =>
      intro s j
      rw [List.range'_succ, List.map_cons, applyGates_cons, ih (lo + 1)]
      by_cases h1 : lo + 1 + 1 ≤ j ∧ j ≤ lo + 1 + len
      · rw [if_pos h1, if_pos (by omega)]
        have hx := xorRange_shift s lo (j - (lo + 1) + 1) (by omega)
        have he1 : j - (lo + 1) + 1 + 1 = j - lo + 1 := by omega
        rw [he1] at hx
        exact hx
      · rw [if_neg h1]
        by_cases h2 : j = lo + 1
        · subst h2
          rw [if_pos (by omega), testBit_applyGate_cx, if_pos rfl]
          have he : lo + 1 - lo + 1 = 2 := by omega
          rw [he]
          show (s.testBit (lo + 1)).xor (s.testBit lo)
              = ((xorRange s lo 1).xor (s.testBit (lo + 1)))
          simp [xorRange, Bool.xor_comm]
        · rw [testBit_applyGate_cx, if_neg (fun hh => h2 hh.symm), if_neg (by omega)]

theorem p3chain_shift (s N k0 : Nat) (hN : 1 ≤ N) :
    ∀ i, p3chain (applyGate (Gate.ccx k0 true (N + k0) true (k0 + 1)) s) N (k0 + 1) i
      = p3chain s N k0 (i + 1) := by
  intro i
  induction i with
  | zero =>
      show (applyGate (Gate.ccx k0 true (N + k0) true (k0 + 1)) s).testBit (k0 + 1)
          = (s.testBit (k0 + 0 + 1)).xor (p3chain s N k0 0 && s.testBit (N + k0 + 0))
      rw [testBit_applyGate_ccx, if_pos rfl]
      simp [p3chain]
  | succ i ih =>
      show (_ : Bool).xor _ = (_ : Bool).xor _
      rw [ih, testBit_applyGate_ccx, if_neg (by omega), testBit_applyGate_ccx,
        if_neg (by omega)]
      have he1 : k0 + 1 + i + 1 = k0 + (i + 1) + 1 := by omega
      have he2 : N + (k0 + 1) + i = N + k0 + (i + 1) := by omega
      rw [he1, he2]

theorem p3_sem (N : Nat) (hN : 1 ≤ N) : ∀ (k0 len : Nat) (s : Nat),
    ∀ j, (applyGates ((List.range' k0 len).map fun k =>
        Gate.ccx k true (N + k) true (k + 1)) s).testBit j =
      if k0 + 1 ≤ j ∧ j ≤ k0 + len then p3chain s N k0 (j - k0) else s.testBit j := by
  intro k0 len
  induction len generalizing k0 with
  | zero =>
      intro s j
      simp only [List.range', List.map_nil, applyGates_nil]
      rw [if_neg (by omega)]
  | succ len ih =>
      intro s j
      rw [List.range'_succ, List.map_cons, applyGates_cons, ih (k0 + 1)]
      by_cases h1 : k0 + 1 + 1 ≤ j ∧ j ≤ k0 + 1 + len
      · rw [if_pos h1, if_pos (by omega), p3chain_shift s N k0 hN]
        have he : j - (k0 + 1) + 1 = j - k0 := by omega
        rw [he]
      · rw [if_neg h1]
        by_cases h2 : j = k0 + 1
        · subst h2
          rw [if_pos (by omega), testBit_applyGate_ccx, if_pos rfl]
          have he : k0 + 1 - k0 = 1 := by omega
          rw [he]
          simp [p3chain]
        · rw [testBit_applyGate_ccx, if_neg (fun hh => h2 hh.symm), if_neg (by omega)]

theorem testBit_applyGate_ccx_tt (c1 c2 t s j : Nat) :
    (applyGate (Gate.ccx c1 true c2 true t) s).testBit j =
      if t = j then (s.testBit j).xor (s.testBit c1 && s.testBit c2) else s.testBit j := by
  rw [testBit_applyGate_ccx]
  simp

theorem p4_pair_bits (N len : Nat) (hN : len + 1 < N) (s : Nat) :
    ∀ w, (applyGate (Gate.ccx len true (N + len) true (1 + len))
        (applyGate (Gate.cx (1 + len) (N + (1 + len))) s)).testBit w
      = if w = 1 + len then (s.testBit (1 + len)).xor (s.testBit len && s.testBit (N + len))
        else if w = N + (1 + len) then (s.testBit (N + (1 + len))).xor (s.testBit (1 + len))
        else s.testBit w := by
  intro w
  by_cases hw1 : w = 1 + len
  · rw [testBit_applyGate_ccx_tt, if_pos (show 1 + len = w from hw1.symm),
      testBit_applyGate_cx (1 + len) (N + (1 + len)) s w,
      if_neg (show ¬N + (1 + len) = w by omega),
      testBit_applyGate_cx (1 + len) (N + (1 + len)) s len,
      if_neg (show ¬N + (1 + len) = len by omega),
      testBit_applyGate_cx (1 + len) (N + (1 + len)) s (N + len),
      if_neg (show ¬N + (1 + len) = N + len by omega),
      if_pos hw1, hw1]
  · rw [testBit_applyGate_ccx_tt, if_neg (show ¬1 + len = w from fun hh => hw1 hh.symm),
      testBit_applyGate_cx (1 + len) (N + (1 + len)) s w]
    by_cases hw2 : w = N + (1 + len)
    · rw [if_pos (show N + (1 + len) = w from hw2.symm), if_neg (show ¬w = 1 + len from hw1),
        if_pos hw2, hw2]
    · rw [if_neg (show ¬N + (1 + len) = w from fun hh => hw2 hh.symm),
        if_neg (show ¬w = 1 + len from hw1), if_neg (show ¬w = N + (1 + len) from hw2)]

theorem p4c_pair_bits (N len : Nat) (hN : len + 1 < N) (s : Nat) :
    ∀ w, (applyGate (Gate.ccx len true (N + len) true (1 + len))
        (applyGate (Gate.ccx (2 * N) true (1 + len) true (N + (1 + len))) s)).testBit w
      = if w = 1 + len then (s.testBit (1 + len)).xor (s.testBit len && s.testBit (N + len))
        else if w = N + (1 + len) then
          (s.testBit (N + (1 + len))).xor (s.testBit (2 * N) && s.testBit (1 + len))
        else s.testBit w := by
  intro w
  by_cases hw1 : w = 1 + len
  · rw [testBit_applyGate_ccx_tt, if_pos (show 1 + len = w from hw1.symm),
      testBit_applyGate_ccx_tt (2 * N) (1 + len) (N + (1 + len)) s w,
      if_neg (show ¬N + (1 + len) = w by omega),
      testBit_applyGate_ccx_tt (2 * N) (1 + len) (N + (1 + len)) s len,
      if_neg (show ¬N + (1 + len) = len by omega),
      testBit_applyGate_ccx_tt (2 * N) (1 + len) (N + (1 + len)) s (N + len),
      if_neg (show ¬N + (1 + len) = N + len by omega),
      if_pos hw1, hw1]
  · rw [testBit_applyGate_ccx_tt, if_neg (show ¬1 + len = w from fun hh => hw1 hh.symm),
      testBit_applyGate_ccx_tt (2 * N) (1 + len) (N + (1 + len)) s w]
    by_cases hw2 : w = N + (1 + len)
    · rw [if_pos (show N + (1 + len) = w from hw2.symm), if_neg (show ¬w = 1 + len from hw1),
        if_pos hw2, hw2]
    · rw [if_neg (show ¬N + (1 + len) = w from fun hh => hw2 hh.symm),
        if_neg (show ¬w = 1 + len from hw1), if_neg (show ¬w = N + (1 + len) from hw2)]

theorem p4_sem (N : Nat) : ∀ (len : Nat), len < N → ∀ (s : Nat),
    ∀ j, (applyGates (((revRange 1 len).map fun i =>
        [Gate.cx i (N + i), Gate.ccx (i - 1) true (N + i - 1) true i]).flatten) s).testBit j =
      if 1 ≤ j ∧ j ≤ len then
        (s.testBit j).xor (s.testBit (j - 1) && s.testBit (N + j - 1))
      else if N + 1 ≤ j ∧ j ≤ N + len then (s.testBit j).xor (s.testBit (j - N))
      else s.testBit j := by
  intro len
  induction len with
  | zero =>
      intro _ s j
      rw [revRange_zero]
      simp only [List.map_nil, List.flatten_nil, applyGates_nil]
      rw [if_neg (by omega), if_neg (by omega)]
  | succ len ih =>
      intro hlen s j
      rw [revRange_succ, List.map_cons, List.flatten_cons]
      rw [List.cons_append, List.singleton_append, applyGates_cons, applyGates_cons,
        ih (by omega)]
      have e1 : 1 + len - 1 = len := by omega
      have e2 : N + (1 + len) - 1 = N + len := by omega
      rw [e1, e2]
      have hp := p4_pair_bits N len (by omega) s
      by_cases h1 : 1 ≤ j ∧ j ≤ len
      · rw [if_pos h1, if_pos (by omega), hp j,
          if_neg (show ¬j = 1 + len by omega), if_neg (show ¬j = N + (1 + len) by omega),
          hp (j - 1),
          if_neg (show ¬j - 1 = 1 + len by omega),
          if_neg (show ¬j - 1 = N + (1 + len) by omega),
          hp (N + j - 1),
          if_neg (show ¬N + j - 1 = 1 + len by omega),
          if_neg (show ¬N + j - 1 = N + (1 + len) by omega)]
      · rw [if_neg h1]
        by_cases h2 : N + 1 ≤ j ∧ j ≤ N + len
        · rw [if_pos h2, if_neg (show ¬(1 ≤ j ∧ j ≤ len + 1) by omega), if_pos (by omega),
            hp j,
            if_neg (show ¬j = 1 + len by omega), if_neg (show ¬j = N + (1 + len) by omega),
            hp (j - N),
            if_neg (show ¬j - N = 1 + len by omega),
            if_neg (show ¬j - N = N + (1 + len) by omega)]
        · rw [if_neg h2]
          by_cases h3 : j = 1 + len
          · rw [if_pos (show 1 ≤ j ∧ j ≤ len + 1 by omega), hp j, if_pos h3]
            have e3 : j - 1 = len := by omega
            have e4 : N + j - 1 = N + len := by omega
            rw [e3, e4, h3]
          · by_cases h4 : j = N + (1 + len)
            · rw [if_neg (show ¬(1 ≤ j ∧ j ≤ len + 1) by omega),
                if_pos (show N + 1 ≤ j ∧ j ≤ N + (len + 1) by omega),
                hp j, if_neg h3, if_pos h4]
              have e3 : j - N = 1 + len := by omega
              rw [e3, h4]
            · rw [if_neg (show ¬(1 ≤ j ∧ j ≤ len + 1) by omega),
                if_neg (show ¬(N + 1 ≤ j ∧ j ≤ N + (len + 1)) by omega),
                hp j, if_neg h3, if_neg h4]

theorem p4c_sem (N : Nat) : ∀ (len : Nat), len < N → ∀ (s : Nat),
    ∀ j, (applyGates (((revRange 1 len).map fun i =>
        [Gate.ccx (2 * N) true i true (N + i),
         Gate.ccx (i - 1) true (N + i - 1) true i]).flatten) s).testBit j =
      if 1 ≤ j ∧ j ≤ len then
        (s.testBit j).xor (s.testBit (j - 1) && s.testBit (N + j - 1))
      else if N + 1 ≤ j ∧ j ≤ N + len then
        (s.testBit j).xor (s.testBit (2 * N) && s.testBit (j - N))
      else s.testBit j := by
  intro len
  induction len with
  | zero =>
      intro _ s j
      rw [revRange_zero]
      simp only [List.map_nil, List.flatten_nil, applyGates_nil]
      rw [if_neg (by omega), if_neg (by omega)]
  | succ len ih =>
      intro hlen s j
      rw [revRange_succ, List.map_cons, List.flatten_cons]
      rw [List.cons_append, List.singleton_append, applyGates_cons, applyGates_cons,
        ih (by omega)]
      have e1 : 1 + len - 1 = len := by omega
      have e2 : N + (1 + len) - 1 = N + len := by omega
      rw [e1, e2]
      have hp := p4c_pair_bits N len (by omega) s
      by_cases h1 : 1 ≤ j ∧ j ≤ len
      · rw [if_pos h1, if_pos (by omega), hp j,
          if_neg (show ¬j = 1 + len by omega), if_neg (show ¬j = N + (1 + len) by omega),
          hp (j - 1),
          if_neg (show ¬j - 1 = 1 + len by omega),
          if_neg (show ¬j - 1 = N + (1 + len) by omega),
          hp (N + j - 1),
          if_neg (show ¬N + j - 1 = 1 + len by omega),
          if_neg (show ¬N + j - 1 = N + (1 + len) by omega)]
      · rw [if_neg h1]
        by_cases h2 : N + 1 ≤ j ∧ j ≤ N + len
        · rw [if_pos h2, if_neg (show ¬(1 ≤ j ∧ j ≤ len + 1) by omega), if_pos (by omega),
            hp j,
            if_neg (show ¬j = 1 + len by omega), if_neg (show ¬j = N + (1 + len) by omega),
            hp (2 * N),
            if_neg (show ¬2 * N = 1 + len by omega),
            if_neg (show ¬2 * N = N + (1 + len) by omega),
            hp (j - N),
            if_neg (show ¬j - N = 1 + len by omega),
            if_neg (show ¬j - N = N + (1 + len) by omega)]
        · rw [if_neg h2]
          by_cases h3 : j = 1 + len
          · rw [if_pos (show 1 ≤ j ∧ j ≤ len + 1 by omega), hp j, if_pos h3]
            have e3 : j - 1 = len := by omega
            have e4 : N + j - 1 = N + len := by omega
            rw [e3, e4, h3]
          · by_cases h4 : j = N + (1 + len)
            · rw [if_neg (show ¬(1 ≤ j ∧ j ≤ len + 1) by omega),
                if_pos (show N + 1 ≤ j ∧ j ≤ N + (len + 1) by omega),
                hp j, if_neg h3, if_pos h4]
              have e3 : j - N = 1 + len := by omega
              rw [e3, h4]
            · rw [if_neg (show ¬(1 ≤ j ∧ j ≤ len + 1) by omega),
                if_neg (show ¬(N + 1 ≤ j ∧ j ≤ N + (len + 1)) by omega),
                hp j, if_neg h3, if_neg h4]

theorem carry_fold (a b c : Bool) :
    ((a.xor c) && (a.xor b)) = a.xor ((a && b) || (c && (a.xor b))) := by
  cases a <;> cases b <;> cases c <;> rfl

theorem carry_one (x y : Nat) : carry x y 1 = (x.testBit 0 && y.testBit 0) := by
  show ((x.testBit 0 && y.testBit 0) || (carry x y 0 && _)) = _
  show ((x.testBit 0 && y.testBit 0) || (false && _)) = _
  simp

/-- Value of the carry-ripple chain on the state reached after the adder's
first two phases. -/
theorem p3chain_carry (x y N : Nat) (hN : 1 ≤ N) (s : Nat)
    (ha0 : s.testBit 0 = x.testBit 0)
    (ha1 : 2 ≤ N → s.testBit 1 = x.testBit 1)
    (ha : ∀ k, 2 ≤ k → k ≤ N - 1 → s.testBit k = (x.testBit k).xor (x.testBit (k - 1)))
    (hb0 : s.testBit N = y.testBit 0)
    (hb : ∀ k, 1 ≤ k → k ≤ N - 1 → s.testBit (N + k) = (x.testBit k).xor (y.testBit k)) :
    ∀ i, i ≤ N - 1 → p3chain s N 0 i = (x.testBit i).xor (carry x y i) := by
  intro i
  induction i with
  | zero =>
      intro _
      show s.testBit 0 = (x.testBit 0).xor (carry x y 0)
      rw [ha0]
      show x.testBit 0 = (x.testBit 0).xor false
      simp
  | succ i ih =>
      intro hle
      show (s.testBit (0 + i + 1)).xor (p3chain s N 0 i && s.testBit (N + 0 + i))
          = (x.testBit (i + 1)).xor (carry x y (i + 1))
      rw [ih (by omega)]
      simp only [Nat.zero_add, Nat.add_zero]
      by_cases hi : i = 0
      · subst hi
        simp only [Nat.add_zero]
        rw [hb0]
        by_cases hN2 : 2 ≤ N
        · rw [ha1 hN2]
          show (x.testBit 1).xor (((x.testBit 0).xor (carry x y 0)) && y.testBit 0) = _
          rw [carry_one]
          show (x.testBit 1).xor (((x.testBit 0).xor false) && y.testBit 0) = _
          simp
        · omega
      · have h2i : 2 ≤ i + 1 := by omega
        rw [ha (i + 1) h2i (by omega), hb i (by omega) (by omega)]
        have he : i + 1 - 1 = i := by omega
        rw [he]
        have hcarry : carry x y (i + 1)
            = ((x.testBit i && y.testBit i) || (carry x y i && ((x.testBit i).xor (y.testBit i)))) :=
          rfl
        rw [hcarry]
        cases x.testBit (i + 1) <;> cases x.testBit i <;> cases y.testBit i <;>
          cases carry x y i <;> rfl

theorem xorRange_telescope (x N : Nat) (s : Nat)
    (h1 : 2 ≤ N → s.testBit 1 = x.testBit 1)
    (ha : ∀ k, 2 ≤ k → k ≤ N - 1 → s.testBit k = (x.testBit k).xor (x.testBit (k - 1))) :
    ∀ m, 1 ≤ m → m ≤ N - 1 → xorRange s 1 m = x.testBit m := by
  intro m
  induction m with
  | zero => omega
  | succ m ih =>
      intro _ hm2
      show (xorRange s 1 m).xor (s.testBit (1 + m)) = x.testBit (m + 1)
      by_cases hm : 1 ≤ m
      · rw [ih hm (by omega)]
        have he : 1 + m = m + 1 := by omega
        rw [he, ha (m + 1) (by omega) (by omega)]
        have he2 : m + 1 - 1 = m := by omega
        rw [he2]
        cases x.testBit m <;> cases x.testBit (m + 1) <;> rfl
      · have hm0 : m = 0 := by omega
        subst hm0
        show (xorRange s 1 0).xor (s.testBit (1 + 0)) = x.testBit 1
        rw [h1 (by omega)]
        show (false).xor (x.testBit 1) = x.testBit 1
        simp

theorem adder_sem (N : Nat) (hN : 1 ≤ N) (x y : Nat) (hx : x < 2 ^ N) (hy : y < 2 ^ N) :
    applyGates (adderGates N) (x + 2 ^ N * y) = x + 2 ^ N * ((x + y) % 2 ^ N) := by
  have h0 : ∀ j, (x + 2 ^ N * y).testBit j
      = if j < N then x.testBit j else if j < 2 * N then y.testBit (j - N) else false := by
    intro j
    rw [testBit_pack2 N x hx y j]
    by_cases hj : j < N
    · rw [if_pos hj, if_pos hj]
    · rw [if_neg hj, if_neg hj]
      by_cases hj2 : j < 2 * N
      · rw [if_pos hj2]
      · rw [if_neg hj2]
        exact Nat.testBit_lt_two_pow
          (lt_of_lt_of_le hy (Nat.pow_le_pow_right (by norm_num) (by omega)))
  rw [adderGates, applyGates_append, applyGates_append, applyGates_append, applyGates_append,
    applyGates_append, applyGates_append]
  -- phase 1: b[i] ^= a[i] for i = N-1 .. 1
  have h1 : ∀ j, (applyGates ((revRange 1 (N - 1)).map fun i => Gate.cx i (N + i))
        (x + 2 ^ N * y)).testBit j
      = if j < N then x.testBit j
        else if j = N then y.testBit 0
        else if j < 2 * N then (x.testBit (j - N)).xor (y.testBit (j - N))
        else false := by
    intro j
    rw [p1_sem]
    by_cases hc : N + 1 ≤ j ∧ j ≤ N + (N - 1)
    · rw [if_pos hc, h0 j, h0 (j - N),
        if_neg (show ¬j < N by omega), if_pos (show j < 2 * N by omega),
        if_pos (show j - N < N by omega), if_neg (show ¬j < N by omega),
        if_neg (show ¬j = N by omega), if_pos (show j < 2 * N by omega)]
      exact Bool.xor_comm _ _
    · rw [if_neg hc, h0 j]
      by_cases hj : j < N
      · rw [if_pos hj, if_pos hj]
      · by_cases hjN : j = N
        · rw [if_neg hj, if_pos (show j < 2 * N by omega), if_neg hj, if_pos hjN, hjN]
          simp
        · rw [if_neg hj, if_neg (show ¬j < 2 * N by omega), if_neg hj, if_neg hjN,
            if_neg (show ¬j < 2 * N by omega)]
  -- phase 2: a[i+1] ^= a[i] for i = N-2 .. 1
  have h2 : ∀ j, (applyGates ((revRange 1 (N - 2)).map fun i => Gate.cx i (i + 1))
        (applyGates ((revRange 1 (N - 1)).map fun i => Gate.cx i (N + i))
          (x + 2 ^ N * y))).testBit j
      = if j < N then
          (if j = 0 then x.testBit 0 else if j = 1 then x.testBit 1
           else (x.testBit j).xor (x.testBit (j - 1)))
        else if j = N then y.testBit 0
        else if j < 2 * N then (x.testBit (j - N)).xor (y.testBit (j - N))
        else false := by
    intro j
    rw [p2_sem]
    by_cases hc : 2 ≤ j ∧ j ≤ N - 2 + 1
    · rw [if_pos hc, h1 j, h1 (j - 1),
        if_pos (show j < N by omega), if_pos (show j - 1 < N by omega),
        if_pos (show j < N by omega), if_neg (show ¬j = 0 by omega),
        if_neg (show ¬j = 1 by omega)]
    · rw [if_neg hc, h1 j]
      by_cases hj : j < N
      · rw [if_pos hj, if_pos hj]
        by_cases hj0 : j = 0
        · rw [if_pos hj0, hj0]
        · rw [if_neg hj0, if_pos (show j = 1 by omega)]
          have he : j = 1 := by omega
          rw [he]
      · rw [if_neg hj, if_neg hj]
  -- phase 3: the carry ripple
  have h3 : ∀ j, (applyGates ((List.range (N - 1)).map fun i =>
        Gate.ccx i true (N + i) true (i + 1))
        (applyGates ((revRange 1 (N - 2)).map fun i => Gate.cx i (i + 1))
          (applyGates ((revRange 1 (N - 1)).map fun i => Gate.cx i (N + i))
            (x + 2 ^ N * y)))).testBit j
      = if j < N then (x.testBit j).xor (carry x y j)
        else if j = N then y.testBit 0
        else if j < 2 * N then (x.testBit (j - N)).xor (y.testBit (j - N))
        else false := by
    have hchain := p3chain_carry x y N hN
      (applyGates ((revRange 1 (N - 2)).map fun i => Gate.cx i (i + 1))
        (applyGates ((revRange 1 (N - 1)).map fun i => Gate.cx i (N + i))
          (x + 2 ^ N * y)))
      (by rw [h2 0, if_pos (show 0 < N by omega), if_pos (show (0 : Nat) = 0 from rfl)])
      (fun h2N => by
        rw [h2 1, if_pos (show 1 < N by omega), if_neg (show ¬(1 : Nat) = 0 by omega),
          if_pos (show (1 : Nat) = 1 from rfl)])
      (fun k hk1 hk2 => by
        rw [h2 k, if_pos (show k < N by omega), if_neg (show ¬k = 0 by omega),
          if_neg (show ¬k = 1 by omega)])
      (by rw [h2 N, if_neg (show ¬N < N by omega), if_pos (show N = N from rfl)])
      (fun k hk1 hk2 => by
        rw [h2 (N + k), if_neg (show ¬N + k < N by omega),
          if_neg (show ¬N + k = N by omega), if_pos (show N + k < 2 * N by omega)]
        have he : N + k - N = k := by omega
        rw [he])
    intro j
    rw [List.range_eq_range', p3_sem N hN]
    by_cases hc : 0 + 1 ≤ j ∧ j ≤ 0 + (N - 1)
    · rw [if_pos hc]
      have he : j - 0 = j := by omega
      rw [he, hchain j (by omega), if_pos (show j < N by omega)]
    · rw [if_neg hc, h2 j]
      by_cases hj0 : j = 0
      · rw [if_pos (show j < N by omega), if_pos hj0, if_pos (show j < N by omega), hj0]
        show x.testBit 0 = (x.testBit 0).xor (carry x y 0)
        show x.testBit 0 = (x.testBit 0).xor false
        simp
      · rw [if_neg (show ¬j < N by omega)]
        by_cases hjN : j = N
        · rw [if_pos hjN, if_neg (show ¬j < N by omega)]
        · rw [if_neg hjN, if_neg (show ¬j < N by omega)]
  -- phase 4 and the low-order sum gate
  have h4 : ∀ j, (applyGates (((revRange 1 (N - 1)).map fun i =>
        [Gate.cx i (N + i), Gate.ccx (i - 1) true (N + i - 1) true i]).flatten)
        (applyGates ((List.range (N - 1)).map fun i =>
          Gate.ccx i true (N + i) true (i + 1))
          (applyGates ((revRange 1 (N - 2)).map fun i => Gate.cx i (i + 1))
            (applyGates ((revRange 1 (N - 1)).map fun i => Gate.cx i (N + i))
              (x + 2 ^ N * y))))).testBit j
      = if j < N then
          (if j = 0 then x.testBit 0 else if j = 1 then x.testBit 1
           else (x.testBit j).xor (x.testBit (j - 1)))
        else if j = N then y.testBit 0
        else if j < 2 * N then (y.testBit (j - N)).xor (carry x y (j - N))
        else false := by
    intro j
    rw [p4_sem N (N - 1) (by omega)]
    by_cases hc1 : 1 ≤ j ∧ j ≤ N - 1
    · rw [if_pos hc1, h3 j, h3 (j - 1), if_pos (show j < N by omega),
        if_pos (show j - 1 < N by omega), if_pos (show j < N by omega)]
      by_cases hj1 : j = 1
      · rw [h3 (N + j - 1), if_neg (show ¬N + j - 1 < N by omega),
          if_pos (show N + j - 1 = N by omega), if_pos hj1, hj1]
        show ((x.testBit 1).xor (carry x y 1)).xor
            (((x.testBit (1 - 1)).xor (carry x y (1 - 1))) && y.testBit 0) = x.testBit 1
        show ((x.testBit 1).xor (carry x y 1)).xor
            (((x.testBit 0).xor (carry x y 0)) && y.testBit 0) = x.testBit 1
        rw [carry_one]
        show ((x.testBit 1).xor (x.testBit 0 && y.testBit 0)).xor
            (((x.testBit 0).xor false) && y.testBit 0) = x.testBit 1
        cases x.testBit 1 <;> cases x.testBit 0 <;> cases y.testBit 0 <;> rfl
      · rw [h3 (N + j - 1), if_neg (show ¬N + j - 1 < N by omega),
          if_neg (show ¬N + j - 1 = N by omega), if_pos (show N + j - 1 < 2 * N by omega),
          if_neg (show ¬j = 0 by omega), if_neg hj1]
        have he : N + j - 1 - N = j - 1 := by omega
        rw [he]
        have hcs : carry x y j
            = ((x.testBit (j - 1) && y.testBit (j - 1)) ||
                (carry x y (j - 1) && ((x.testBit (j - 1)).xor (y.testBit (j - 1))))) := by
          have he2 : j = (j - 1) + 1 := by omega
          rw [he2]
          rfl
        rw [hcs]
        cases x.testBit j <;> cases x.testBit (j - 1) <;> cases y.testBit (j - 1) <;>
          cases carry x y (j - 1) <;> rfl
    · rw [if_neg hc1]
      by_cases hc2 : N + 1 ≤ j ∧ j ≤ N + (N - 1)
      · rw [if_pos hc2, h3 j, h3 (j - N), if_neg (show ¬j < N by omega),
          if_neg (show ¬j = N by omega), if_pos (show j < 2 * N by omega),
          if_pos (show j - N < N by omega), if_neg (show ¬j < N by omega),
          if_neg (show ¬j = N by omega), if_pos (show j < 2 * N by omega)]
        cases x.testBit (j - N) <;> cases y.testBit (j - N) <;> cases carry x y (j - N) <;> rfl
      · rw [h3 j]
        by_cases hj0 : j = 0
        · rw [if_pos (show j < N by omega), if_pos (show j < N by omega), if_pos hj0, hj0]
          show (x.testBit 0).xor (carry x y 0) = x.testBit 0
          show (x.testBit 0).xor false = x.testBit 0
          simp
        · by_cases hjN : j = N
          · rw [if_neg hc2, if_neg (show ¬j < N by omega), if_pos hjN,
              if_neg (show ¬j < N by omega), if_pos hjN]
          · rw [if_neg hc2, if_neg (show ¬j < N by omega), if_neg hjN,
              if_neg (show ¬j < 2 * N by omega), if_neg (show ¬j < N by omega),
              if_neg hjN, if_neg (show ¬j < 2 * N by omega)]
  have h5 : ∀ j, (applyGates [Gate.cx 0 N]
        (applyGates (((revRange 1 (N - 1)).map fun i =>
          [Gate.cx i (N + i), Gate.ccx (i - 1) true (N + i - 1) true i]).flatten)
          (applyGates ((List.range (N - 1)).map fun i =>
            Gate.ccx i true (N + i) true (i + 1))
            (applyGates ((revRange 1 (N - 2)).map fun i => Gate.cx i (i + 1))
              (applyGates ((revRange 1 (N - 1)).map fun i => Gate.cx i (N + i))
                (x + 2 ^ N * y)))))).testBit j
      = if j < N then
          (if j = 0 then x.testBit 0 else if j = 1 then x.testBit 1
           else (x.testBit j).xor (x.testBit (j - 1)))
        else if j = N then (y.testBit 0).xor (x.testBit 0)
        else if j < 2 * N then (y.testBit (j - N)).xor (carry x y (j - N))
        else false := by
    intro j
    rw [applyGates_cons, applyGates_nil, testBit_applyGate_cx]
    by_cases hjN : j = N
    · rw [if_pos hjN.symm, h4 j, h4 0,
        if_neg (show ¬j < N by omega), if_pos hjN,
        if_pos (show (0 : Nat) < N by omega), if_pos (show (0 : Nat) = 0 from rfl),
        if_neg (show ¬j < N by omega), if_pos hjN]
    · rw [if_neg (fun hh => hjN hh.symm), h4 j]
      by_cases hj : j < N
      · rw [if_pos hj, if_pos hj]
      · rw [if_neg hj, if_neg hj, if_neg hjN, if_neg hjN]
  -- phase 6: undo the a-register cascade
  have h6 : ∀ j, (applyGates ((List.range' 1 (N - 2)).map fun i => Gate.cx i (i + 1))
        (applyGates [Gate.cx 0 N]
          (applyGates (((revRange 1 (N - 1)).map fun i =>
            [Gate.cx i (N + i), Gate.ccx (i - 1) true (N + i - 1) true i]).flatten)
            (applyGates ((List.range (N - 1)).map fun i =>
              Gate.ccx i true (N + i) true (i + 1))
              (applyGates ((revRange 1 (N - 2)).map fun i => Gate.cx i (i + 1))
                (applyGates ((revRange 1 (N - 1)).map fun i => Gate.cx i (N + i))
                  (x + 2 ^ N * y))))))).testBit j
      = if j < N then x.testBit j
        else if j = N then (y.testBit 0).xor (x.testBit 0)
        else if j < 2 * N then (y.testBit (j - N)).xor (carry x y (j - N))
        else false := by
    intro j
    rw [p6_sem]
    by_cases hc : 1 + 1 ≤ j ∧ j ≤ 1 + (N - 2)
    · rw [if_pos hc]
      have he : j - 1 + 1 = j := by omega
      rw [he]
      have htel := xorRange_telescope x N _
        (fun h2N => by
          rw [h5 1, if_pos (show 1 < N by omega), if_neg (show ¬(1 : Nat) = 0 by omega),
            if_pos (show (1 : Nat) = 1 from rfl)])
        (fun k hk1 hk2 => by
          rw [h5 k, if_pos (show k < N by omega), if_neg (show ¬k = 0 by omega),
            if_neg (show ¬k = 1 by omega)])
      rw [htel j (by omega) (by omega), if_pos (show j < N by omega)]
    · rw [if_neg hc, h5 j]
      by_cases hj : j < N
      · rw [if_pos hj, if_pos hj]
        by_cases hj0 : j = 0
        · rw [if_pos hj0, hj0]
        · rw [if_neg hj0, if_pos (show j = 1 by omega)]
          have he : j = 1 := by omega
          rw [he]
      · rw [if_neg hj, if_neg hj]
  -- phase 7: recombine into the sum bits
  have h7 : ∀ j, (applyGates ((List.range' 1 (N - 1)).map fun i => Gate.cx i (N + i))
        (applyGates ((List.range' 1 (N - 2)).map fun i => Gate.cx i (i + 1))
          (applyGates [Gate.cx 0 N]
            (applyGates (((revRange 1 (N - 1)).map fun i =>
              [Gate.cx i (N + i), Gate.ccx (i - 1) true (N + i - 1) true i]).flatten)
              (applyGates ((List.range (N - 1)).map fun i =>
                Gate.ccx i true (N + i) true (i + 1))
                (applyGates ((revRange 1 (N - 2)).map fun i => Gate.cx i (i + 1))
                  (applyGates ((revRange 1 (N - 1)).map fun i => Gate.cx i (N + i))
                    (x + 2 ^ N * y)))))))).testBit j
      = if j < N then x.testBit j
        else if j = N then (y.testBit 0).xor (x.testBit 0)
        else if j < 2 * N then
          (x.testBit (j - N)).xor ((y.testBit (j - N)).xor (carry x y (j - N)))
        else false := by
    intro j
    rw [p7_sem N 1 (N - 1) (by omega)]
    by_cases hc : N + 1 ≤ j ∧ j < N + 1 + (N - 1)
    · rw [if_pos hc, h6 j, h6 (j - N), if_neg (show ¬j < N by omega),
        if_neg (show ¬j = N by omega), if_pos (show j < 2 * N by omega),
        if_pos (show j - N < N by omega), if_neg (show ¬j < N by omega),
        if_neg (show ¬j = N by omega), if_pos (show j < 2 * N by omega)]
      cases x.testBit (j - N) <;> cases y.testBit (j - N) <;> cases carry x y (j - N) <;> rfl
    · rw [if_neg hc, h6 j]
      by_cases hj : j < N
      · rw [if_pos hj, if_pos hj]
      · by_cases hjN : j = N
        · rw [if_neg hj, if_pos hjN, if_neg hj, if_pos hjN]
        · rw [if_neg hj, if_neg hjN, if_neg (show ¬j < 2 * N by omega), if_neg hj,
            if_neg hjN, if_neg (show ¬j < 2 * N by omega)]
  -- conclude
  apply Nat.eq_of_testBit_eq
  intro j
  rw [h7 j, testBit_pack2 N x hx ((x + y) % 2 ^ N) j]
  by_cases hj : j < N
  · rw [if_pos hj, if_pos hj]
  · rw [if_neg hj, if_neg hj, Nat.testBit_mod_two_pow]
    by_cases hjN : j = N
    · rw [if_pos hjN, hjN]
      have he : N - N = 0 := by omega
      rw [he, testBit_add_carry x y 0]
      have hd : decide (0 < N) = true := decide_eq_true (by omega)
      rw [hd]
      have hc0 : carry x y 0 = false := rfl
      rw [hc0]
      cases x.testBit 0 <;> cases y.testBit 0 <;> rfl
    · by_cases hj2 : j < 2 * N
      · rw [if_neg hjN, if_pos hj2, testBit_add_carry x y (j - N)]
        have hd : decide (j - N < N) = true := decide_eq_true (by omega)
        rw [hd]
        simp
      · rw [if_neg hjN, if_neg hj2]
        have hd : decide (j - N < N) = false := decide_eq_false (by omega)
        rw [hd]
        simp

/-- C2: for every width `N ≥ 1` and all `x, y < 2^N`, the builder `adder(N)`
succeeds, and running its circuit on registers `a = x`, `b = y` (packed as
`x + 2^N*y`) leaves `a = x` and sets `b = (x + y) mod 2^N`. -/
theorem c2_adder_correct (N x y : Nat) (hN : 1 ≤ N) (hx : x < 2 ^ N) (hy : y < 2 ^ N) :
    adder N = .ok (adderGates N) ∧
    applyGates (adderGates N) (x + 2 ^ N * y) = x + 2 ^ N * ((x + y) % 2 ^ N) := by
  constructor
  · unfold adder
    rw [if_neg (show ¬N = 0 by omega)]
  · exact adder_sem N hN x y hx hy

/-- Witness for C2 at `N = 3`, `x = 5`, `y = 6`: `5 + 6 ≡ 3 (mod 8)`. -/
theorem c2_adder_correct_witness :
    adder 3 = .ok (adderGates 3) ∧
    applyGates (adderGates 3) (5 + 2 ^ 3 * 6) = 5 + 2 ^ 3 * ((5 + 6) % 2 ^ 3) :=
  c2_adder_correct 3 5 6 (by decide) (by decide) (by decide)

theorem testBit_pack3 (N x : Nat) (hx : x < 2 ^ N) (y : Nat) (hy : y < 2 ^ N)
    (c : Bool) (j : Nat) :
    (x + 2 ^ N * y + 2 ^ (2 * N) * c.toNat).testBit j
      = if j < N then x.testBit j
        else if j < 2 * N then y.testBit (j - N)
        else if j = 2 * N then c
        else false := by
  have hpack : x + 2 ^ N * y + 2 ^ (2 * N) * c.toNat
      = x + 2 ^ N * (y + 2 ^ N * c.toNat) := by
    have he : 2 ^ (2 * N) = 2 ^ N * 2 ^ N := by
      rw [two_mul, pow_add]
    rw [he]
    ring
  rw [hpack, testBit_pack2 N x hx (y + 2 ^ N * c.toNat) j]
  by_cases hj : j < N
  · rw [if_pos hj, if_pos hj]
  · rw [if_neg hj, if_neg hj, testBit_pack2 N y hy c.toNat (j - N)]
    by_cases hj2 : j < 2 * N
    · rw [if_pos (show j - N < N by omega), if_pos hj2]
    · rw [if_neg (show ¬j - N < N by omega), if_neg hj2]
      by_cases hj3 : j = 2 * N
      · rw [if_pos hj3]
        have he : j - N - N = 0 := by omega
        rw [he]
        cases c <;> rfl
      · rw [if_neg hj3]
        have he : 1 ≤ j - N - N := by omega
        cases c
        · show (0 : Nat).testBit (j - N - N) = false
          exact Nat.zero_testBit _
        · show (1 : Nat).testBit (j - N - N) = false
          have h2 : (1 : Nat) < 2 ^ (j - N - N) := by
            calc (1 : Nat) < 2 ^ 1 := by norm_num
              _ ≤ 2 ^ (j - N - N) := Nat.pow_le_pow_right (by norm_num) (by omega)
          exact Nat.testBit_lt_two_pow h2

theorem ctrlAdd_sem (N : Nat) (hN : 1 ≤ N) (x y : Nat) (hx : x < 2 ^ N) (hy : y < 2 ^ N)
    (c : Bool) :
    applyGates (ctrlAddGates N) (x + 2 ^ N * y + 2 ^ (2 * N) * c.toNat)
      = x + 2 ^ N * (if c then (x + y) % 2 ^ N else y) + 2 ^ (2 * N) * c.toNat := by
  have h0 : ∀ j, (x + 2 ^ N * y + 2 ^ (2 * N) * c.toNat).testBit j
      = if j < N then x.testBit j else if j < 2 * N then y.testBit (j - N)
        else if j = 2 * N then c else false :=
    testBit_pack3 N x hx y hy c
  rw [ctrlAddGates, applyGates_append, applyGates_append, applyGates_append, applyGates_append,
    applyGates_append, applyGates_append]
  -- phase 1: b[i] ^= a[i] for i = N-1 .. 1
  have h1 : ∀ j, (applyGates ((revRange 1 (N - 1)).map fun i => Gate.cx i (N + i))
        (x + 2 ^ N * y + 2 ^ (2 * N) * c.toNat)).testBit j
      = if j < N then x.testBit j
        else if j = N then y.testBit 0
        else if j < 2 * N then (x.testBit (j - N)).xor (y.testBit (j - N))
        else if j = 2 * N then c
        else false := by
    intro j
    rw [p1_sem]
    by_cases hc : N + 1 ≤ j ∧ j ≤ N + (N - 1)
    · rw [if_pos hc, h0 j, h0 (j - N),
        if_neg (show ¬j < N by omega), if_pos (show j < 2 * N by omega),
        if_pos (show j - N < N by omega), if_neg (show ¬j < N by omega),
        if_neg (show ¬j = N by omega), if_pos (show j < 2 * N by omega)]
      exact Bool.xor_comm _ _
    · rw [if_neg hc, h0 j]
      by_cases hj : j < N
      · rw [if_pos hj, if_pos hj]
      · by_cases hjN : j = N
        · rw [if_neg hj, if_pos (show j < 2 * N by omega), if_neg hj, if_pos hjN, hjN]
          simp
        · by_cases hj2 : j = 2 * N
          · rw [if_neg hj, if_neg (show ¬j < 2 * N by omega), if_pos hj2,
              if_neg hj, if_neg hjN, if_neg (show ¬j < 2 * N by omega)]
          · rw [if_neg hj, if_neg (show ¬j < 2 * N by omega), if_neg hj2,
              if_neg hj, if_neg hjN, if_neg (show ¬j < 2 * N by omega)]
  -- phase 2: a[i+1] ^= a[i] for i = N-2 .. 1
  have h2 : ∀ j, (applyGates ((revRange 1 (N - 2)).map fun i => Gate.cx i (i + 1))
        (applyGates ((revRange 1 (N - 1)).map fun i => Gate.cx i (N + i))
          (x + 2 ^ N * y + 2 ^ (2 * N) * c.toNat))).testBit j
      = if j < N then
          (if j = 0 then x.testBit 0 else if j = 1 then x.testBit 1
           else (x.testBit j).xor (x.testBit (j - 1)))
        else if j = N then y.testBit 0
        else if j < 2 * N then (x.testBit (j - N)).xor (y.testBit (j - N))
        else if j = 2 * N then c
        else false := by
    intro j
    rw [p2_sem]
    by_cases hc : 2 ≤ j ∧ j ≤ N - 2 + 1
    · rw [if_pos hc, h1 j, h1 (j - 1),
        if_pos (show j < N by omega), if_pos (show j - 1 < N by omega),
        if_pos (show j < N by omega), if_neg (show ¬j = 0 by omega),
        if_neg (show ¬j = 1 by omega)]
    · rw [if_neg hc, h1 j]
      by_cases hj : j < N
      · rw [if_pos hj, if_pos hj]
        by_cases hj0 : j = 0
        · rw [if_pos hj0, hj0]
        · rw [if_neg hj0, if_pos (show j = 1 by omega)]
          have he : j = 1 := by omega
          rw [he]
      · rw [if_neg hj, if_neg hj]
  -- phase 3: the carry ripple
  have h3 : ∀ j, (applyGates ((List.range (N - 1)).map fun i =>
        Gate.ccx i true (N + i) true (i + 1))
        (applyGates ((revRange 1 (N - 2)).map fun i => Gate.cx i (i + 1))
          (applyGates ((revRange 1 (N - 1)).map fun i => Gate.cx i (N + i))
            (x + 2 ^ N * y + 2 ^ (2 * N) * c.toNat)))).testBit j
      = if j < N then (x.testBit j).xor (carry x y j)
        else if j = N then y.testBit 0
        else if j < 2 * N then (x.testBit (j - N)).xor (y.testBit (j - N))
        else if j = 2 * N then c
        else false := by
    have hchain := p3chain_carry x y N hN
      (applyGates ((revRange 1 (N - 2)).map fun i => Gate.cx i (i + 1))
        (applyGates ((revRange 1 (N - 1)).map fun i => Gate.cx i (N + i))
          (x + 2 ^ N * y + 2 ^ (2 * N) * c.toNat)))
      (by rw [h2 0, if_pos (show 0 < N by omega), if_pos (show (0 : Nat) = 0 from rfl)])
      (fun h2N => by
        rw [h2 1, if_pos (show 1 < N by omega), if_neg (show ¬(1 : Nat) = 0 by omega),
          if_pos (show (1 : Nat) = 1 from rfl)])
      (fun k hk1 hk2 => by
        rw [h2 k, if_pos (show k < N by omega), if_neg (show ¬k = 0 by omega),
          if_neg (show ¬k = 1 by omega)])
      (by rw [h2 N, if_neg (show ¬N < N by omega), if_pos (show N = N from rfl)])
      (fun k hk1 hk2 => by
        rw [h2 (N + k), if_neg (show ¬N + k < N by omega),
          if_neg (show ¬N + k = N by omega), if_pos (show N + k < 2 * N by omega)]
        have he : N + k - N = k := by omega
        rw [he])
    intro j
    rw [List.range_eq_range', p3_sem N hN]
    by_cases hc : 0 + 1 ≤ j ∧ j ≤ 0 + (N - 1)
    · rw [if_pos hc]
      have he : j - 0 = j := by omega
      rw [he, hchain j (by omega), if_pos (show j < N by omega)]
    · rw [if_neg hc, h2 j]
      by_cases hj0 : j = 0
      · rw [if_pos (show j < N by omega), if_pos hj0, if_pos (show j < N by omega), hj0]
        show x.testBit 0 = (x.testBit 0).xor (carry x y 0)
        show x.testBit 0 = (x.testBit 0).xor false
        simp
      · rw [if_neg (show ¬j < N by omega)]
        by_cases hjN : j = N
        · rw [if_pos hjN, if_neg (show ¬j < N by omega)]
        · rw [if_neg hjN, if_neg (show ¬j < N by omega)]
  -- phase 4: controlled b update and partial carry undo
  have h4 : ∀ j, (applyGates (((revRange 1 (N - 1)).map fun i =>
        [Gate.ccx (2 * N) true i true (N + i), Gate.ccx (i - 1) true (N + i - 1) true i]).flatten)
        (applyGates ((List.range (N - 1)).map fun i =>
          Gate.ccx i true (N + i) true (i + 1))
          (applyGates ((revRange 1 (N - 2)).map fun i => Gate.cx i (i + 1))
            (applyGates ((revRange 1 (N - 1)).map fun i => Gate.cx i (N + i))
              (x + 2 ^ N * y + 2 ^ (2 * N) * c.toNat))))).testBit j
      = if j < N then
          (if j = 0 then x.testBit 0 else if j = 1 then x.testBit 1
           else (x.testBit j).xor (x.testBit (j - 1)))
        else if j = N then y.testBit 0
        else if j < 2 * N then
          ((x.testBit (j - N)).xor (y.testBit (j - N))).xor
            (c && ((x.testBit (j - N)).xor (carry x y (j - N))))
        else if j = 2 * N then c
        else false := by
    intro j
    rw [p4c_sem N (N - 1) (by omega)]
    by_cases hc1 : 1 ≤ j ∧ j ≤ N - 1
    · rw [if_pos hc1, h3 j, h3 (j - 1), if_pos (show j < N by omega),
        if_pos (show j - 1 < N by omega), if_pos (show j < N by omega)]
      by_cases hj1 : j = 1
      · rw [h3 (N + j - 1), if_neg (show ¬N + j - 1 < N by omega),
          if_pos (show N + j - 1 = N by omega), if_pos hj1, hj1]
        show ((x.testBit 1).xor (carry x y 1)).xor
            (((x.testBit (1 - 1)).xor (carry x y (1 - 1))) && y.testBit 0) = x.testBit 1
        show ((x.testBit 1).xor (carry x y 1)).xor
            (((x.testBit 0).xor (carry x y 0)) && y.testBit 0) = x.testBit 1
        rw [carry_one]
        show ((x.testBit 1).xor (x.testBit 0 && y.testBit 0)).xor
            (((x.testBit 0).xor false) && y.testBit 0) = x.testBit 1
        cases x.testBit 1 <;> cases x.testBit 0 <;> cases y.testBit 0 <;> rfl
      · rw [h3 (N + j - 1), if_neg (show ¬N + j - 1 < N by omega),
          if_neg (show ¬N + j - 1 = N by omega), if_pos (show N + j - 1 < 2 * N by omega),
          if_neg (show ¬j = 0 by omega), if_neg hj1]
        have he : N + j - 1 - N = j - 1 := by omega
        rw [he]
        have hcs : carry x y j
            = ((x.testBit (j - 1) && y.testBit (j - 1)) ||
                (carry x y (j - 1) && ((x.testBit (j - 1)).xor (y.testBit (j - 1))))) := by
          have he2 : j = (j - 1) + 1 := by omega
          rw [he2]
          rfl
        rw [hcs]
        cases x.testBit j <;> cases x.testBit (j - 1) <;> cases y.testBit (j - 1) <;>
          cases carry x y (j - 1) <;> rfl
    · rw [if_neg hc1]
      by_cases hc2 : N + 1 ≤ j ∧ j ≤ N + (N - 1)
      · rw [if_pos hc2, h3 j, h3 (j - N), h3 (2 * N), if_neg (show ¬j < N by omega),
          if_neg (show ¬j = N by omega), if_pos (show j < 2 * N by omega),
          if_pos (show j - N < N by omega),
          if_neg (show ¬2 * N < N by omega), if_neg (show ¬2 * N = N by omega),
          if_neg (show ¬2 * N < 2 * N by omega), if_pos (show 2 * N = 2 * N from rfl),
          if_neg (show ¬j < N by omega),
          if_neg (show ¬j = N by omega), if_pos (show j < 2 * N by omega)]
      · rw [h3 j]
        by_cases hj0 : j = 0
        · rw [if_pos (show j < N by omega), if_pos (show j < N by omega), if_pos hj0, hj0]
          show (x.testBit 0).xor (carry x y 0) = x.testBit 0
          show (x.testBit 0).xor false = x.testBit 0
          simp
        · by_cases hjN : j = N
          · rw [if_neg hc2, if_neg (show ¬j < N by omega), if_pos hjN,
              if_neg (show ¬j < N by omega), if_pos hjN]
          · by_cases hj2 : j = 2 * N
            · rw [if_neg hc2, if_neg (show ¬j < N by omega), if_neg hjN,
                if_neg (show ¬j < 2 * N by omega), if_pos hj2,
                if_neg (show ¬j < N by omega), if_neg hjN,
                if_neg (show ¬j < 2 * N by omega)]
            · rw [if_neg hc2, if_neg (show ¬j < N by omega), if_neg hjN,
                if_neg (show ¬j < 2 * N by omega), if_neg hj2,
                if_neg (show ¬j < N by omega), if_neg hjN,
                if_neg (show ¬j < 2 * N by omega)]
  -- phase 5: the controlled low-order sum gate
  have h5 : ∀ j, (applyGates [Gate.ccx (2 * N) true 0 true N]
        (applyGates (((revRange 1 (N - 1)).map fun i =>
          [Gate.ccx (2 * N) true i true (N + i),
           Gate.ccx (i - 1) true (N + i - 1) true i]).flatten)
          (applyGates ((List.range (N - 1)).map fun i =>
            Gate.ccx i true (N + i) true (i + 1))
            (applyGates ((revRange 1 (N - 2)).map fun i => Gate.cx i (i + 1))
              (applyGates ((revRange 1 (N - 1)).map fun i => Gate.cx i (N + i))
                (x + 2 ^ N * y + 2 ^ (2 * N) * c.toNat)))))).testBit j
      = if j < N then
          (if j = 0 then x.testBit 0 else if j = 1 then x.testBit 1
           else (x.testBit j).xor (x.testBit (j - 1)))
        else if j = N then (y.testBit 0).xor (c && x.testBit 0)
        else if j < 2 * N then
          ((x.testBit (j - N)).xor (y.testBit (j - N))).xor
            (c && ((x.testBit (j - N)).xor (carry x y (j - N))))
        else if j = 2 * N then c
        else false := by
    intro j
    rw [applyGates_cons, applyGates_nil, testBit_applyGate_ccx_tt]
    by_cases hjN : j = N
    · rw [if_pos hjN.symm, h4 j, h4 (2 * N), h4 0,
        if_neg (show ¬j < N by omega), if_pos hjN,
        if_neg (show ¬2 * N < N by omega), if_neg (show ¬2 * N = N by omega),
        if_neg (show ¬2 * N < 2 * N by omega), if_pos (show 2 * N = 2 * N from rfl),
        if_pos (show (0 : Nat) < N by omega), if_pos (show (0 : Nat) = 0 from rfl),
        if_neg (show ¬j < N by omega), if_pos hjN]
    · rw [if_neg (fun hh => hjN hh.symm), h4 j]
      by_cases hj : j < N
      · rw [if_pos hj, if_pos hj]
      · rw [if_neg hj, if_neg hj, if_neg hjN, if_neg hjN]
  -- phase 6: undo the a-register cascade
  have h6 : ∀ j, (applyGates ((List.range' 1 (N - 2)).map fun i => Gate.cx i (i + 1))
        (applyGates [Gate.ccx (2 * N) true 0 true N]
          (applyGates (((revRange 1 (N - 1)).map fun i =>
            [Gate.ccx (2 * N) true i true (N + i),
             Gate.ccx (i - 1) true (N + i - 1) true i]).flatten)
            (applyGates ((List.range (N - 1)).map fun i =>
              Gate.ccx i true (N + i) true (i + 1))
              (applyGates ((revRange 1 (N - 2)).map fun i => Gate.cx i (i + 1))
                (applyGates ((revRange 1 (N - 1)).map fun i => Gate.cx i (N + i))
                  (x + 2 ^ N * y + 2 ^ (2 * N) * c.toNat))))))).testBit j
      = if j < N then x.testBit j
        else if j = N then (y.testBit 0).xor (c && x.testBit 0)
        else if j < 2 * N then
          ((x.testBit (j - N)).xor (y.testBit (j - N))).xor
            (c && ((x.testBit (j - N)).xor (carry x y (j - N))))
        else if j = 2 * N then c
        else false := by
    intro j
    rw [p6_sem]
    by_cases hc : 1 + 1 ≤ j ∧ j ≤ 1 + (N - 2)
    · rw [if_pos hc]
      have he : j - 1 + 1 = j := by omega
      rw [he]
      have htel := xorRange_telescope x N _
        (fun h2N => by
          rw [h5 1, if_pos (show 1 < N by omega), if_neg (show ¬(1 : Nat) = 0 by omega),
            if_pos (show (1 : Nat) = 1 from rfl)])
        (fun k hk1 hk2 => by
          rw [h5 k, if_pos (show k < N by omega), if_neg (show ¬k = 0 by omega),
            if_neg (show ¬k = 1 by omega)])
      rw [htel j (by omega) (by omega), if_pos (show j < N by omega)]
    · rw [if_neg hc, h5 j]
      by_cases hj : j < N
      · rw [if_pos hj, if_pos hj]
        by_cases hj0 : j = 0
        · rw [if_pos hj0, hj0]
        · rw [if_neg hj0, if_pos (show j = 1 by omega)]
          have he : j = 1 := by omega
          rw [he]
      · rw [if_neg hj, if_neg hj]
  -- phase 7: recombine into the (controlled) sum bits
  have h7 : ∀ j, (applyGates ((List.range' 1 (N - 1)).map fun i => Gate.cx i (N + i))
        (applyGates ((List.range' 1 (N - 2)).map fun i => Gate.cx i (i + 1))
          (applyGates [Gate.ccx (2 * N) true 0 true N]
            (applyGates (((revRange 1 (N - 1)).map fun i =>
              [Gate.ccx (2 * N) true i true (N + i),
               Gate.ccx (i - 1) true (N + i - 1) true i]).flatten)
              (applyGates ((List.range (N - 1)).map fun i =>
                Gate.ccx i true (N + i) true (i + 1))
                (applyGates ((revRange 1 (N - 2)).map fun i => Gate.cx i (i + 1))
                  (applyGates ((revRange 1 (N - 1)).map fun i => Gate.cx i (N + i))
                    (x + 2 ^ N * y + 2 ^ (2 * N) * c.toNat)))))))).testBit j
      = if j < N then x.testBit j
        else if j = N then (y.testBit 0).xor (c && x.testBit 0)
        else if j < 2 * N then
          (x.testBit (j - N)).xor
            (((x.testBit (j - N)).xor (y.testBit (j - N))).xor
              (c && ((x.testBit (j - N)).xor (carry x y (j - N)))))
        else if j = 2 * N then c
        else false := by
    intro j
    rw [p7_sem N 1 (N - 1) (by omega)]
    by_cases hc : N + 1 ≤ j ∧ j < N + 1 + (N - 1)
    · rw [if_pos hc, h6 j, h6 (j - N), if_neg (show ¬j < N by omega),
        if_neg (show ¬j = N by omega), if_pos (show j < 2 * N by omega),
        if_pos (show j - N < N by omega), if_neg (show ¬j < N by omega),
        if_neg (show ¬j = N by omega), if_pos (show j < 2 * N by omega)]
      cases c <;> cases x.testBit (j - N) <;> cases y.testBit (j - N) <;>
        cases carry x y (j - N) <;> rfl
    · rw [if_neg hc, h6 j]
      by_cases hj : j < N
      · rw [if_pos hj, if_pos hj]
      · by_cases hjN : j = N
        · rw [if_neg hj, if_pos hjN, if_neg hj, if_pos hjN]
        · rw [if_neg hj, if_neg hjN, if_neg (show ¬j < 2 * N by omega), if_neg hj,
            if_neg hjN, if_neg (show ¬j < 2 * N by omega)]
  -- conclude, separately for each control value
  cases c with
  | false =>
      have hb : (if (false : Bool) then (x + y) % 2 ^ N else y) = y := rfl
      rw [hb]
      apply Nat.eq_of_testBit_eq
      intro j
      rw [h7 j, testBit_pack3 N x hx y hy false j]
      by_cases hj : j < N
      · rw [if_pos hj, if_pos hj]
      · rw [if_neg hj, if_neg hj]
        by_cases hjN : j = N
        · rw [if_pos hjN, if_pos (show j < 2 * N by omega), hjN]
          have he : N - N = 0 := by omega
          rw [he]
          cases y.testBit 0 <;> rfl
        · by_cases hj2 : j < 2 * N
          · rw [if_neg hjN, if_pos hj2, if_pos hj2]
            cases x.testBit (j - N) <;> cases y.testBit (j - N) <;> rfl
          · by_cases hj3 : j = 2 * N
            · rw [if_neg hjN, if_neg hj2, if_pos hj3, if_neg hj2]
            · rw [if_neg hjN, if_neg hj2, if_neg hj3, if_neg hj2]
  | true =>
      have hb : (if (true : Bool) then (x + y) % 2 ^ N else y) = (x + y) % 2 ^ N := rfl
      rw [hb]
      apply Nat.eq_of_testBit_eq
      intro j
      rw [h7 j, testBit_pack3 N x hx ((x + y) % 2 ^ N)
        (Nat.mod_lt _ (by positivity)) true j]
      by_cases hj : j < N
      · rw [if_pos hj, if_pos hj]
      · rw [if_neg hj, if_neg hj]
        by_cases hjN : j = N
        · rw [if_pos hjN, if_pos (show j < 2 * N by omega), hjN]
          have he : N - N = 0 := by omega
          rw [he, Nat.testBit_mod_two_pow, testBit_add_carry x y 0]
          have hd : decide (0 < N) = true := decide_eq_true (by omega)
          rw [hd]
          have hc0 : carry x y 0 = false := rfl
          rw [hc0]
          cases x.testBit 0 <;> cases y.testBit 0 <;> rfl
        · by_cases hj2 : j < 2 * N
          · rw [if_neg hjN, if_pos hj2, if_pos hj2, Nat.testBit_mod_two_pow,
              testBit_add_carry x y (j - N)]
            have hd : decide (j - N < N) = true := decide_eq_true (by omega)
            rw [hd]
            cases x.testBit (j - N) <;> cases y.testBit (j - N) <;>
              cases carry x y (j - N) <;> rfl
          · by_cases hj3 : j = 2 * N
            · rw [if_neg hjN, if_neg hj2, if_pos hj3, if_neg hj2]
            · rw [if_neg hjN, if_neg hj2, if_neg hj3, if_neg hj2]

/-- C3: for every width `N ≥ 1` and all `x, y < 2^N`, the builder `ctrl_add(N)`
succeeds; its circuit applied with control wire `c = 0` is the identity on the
packed state `(a, b, c) = (x, y, 0)`, and applied with `c = 1` it has exactly
the effect of `adder(N)` on registers `a`, `b` while preserving `c`. -/
theorem c3_ctrl_add_correct (N x y : Nat) (hN : 1 ≤ N) (hx : x < 2 ^ N) (hy : y < 2 ^ N) :
    ctrl_add N = .ok (ctrlAddGates N) ∧
    applyGates (ctrlAddGates N) (x + 2 ^ N * y) = x + 2 ^ N * y ∧
    applyGates (ctrlAddGates N) (x + 2 ^ N * y + 2 ^ (2 * N))
      = applyGates (adderGates N) (x + 2 ^ N * y) + 2 ^ (2 * N) := by
  refine ⟨?_, ?_, ?_⟩
  · unfold ctrl_add
    rw [if_neg (show ¬N = 0 by omega)]
  · have h := ctrlAdd_sem N hN x y hx hy false
    have e1 : x + 2 ^ N * y + 2 ^ (2 * N) * Bool.toNat false = x + 2 ^ N * y := by
      show x + 2 ^ N * y + 2 ^ (2 * N) * 0 = x + 2 ^ N * y
      omega
    have e2 : (if (false : Bool) then (x + y) % 2 ^ N else y) = y := rfl
    rw [e1, e2] at h
    exact h
  · have h := ctrlAdd_sem N hN x y hx hy true
    have e1 : x + 2 ^ N * y + 2 ^ (2 * N) * Bool.toNat true = x + 2 ^ N * y + 2 ^ (2 * N) := by
      show x + 2 ^ N * y + 2 ^ (2 * N) * 1 = x + 2 ^ N * y + 2 ^ (2 * N)
      omega
    have e2 : (if (true : Bool) then (x + y) % 2 ^ N else y) = (x + y) % 2 ^ N := rfl
    rw [e1, e2] at h
    rw [h, adder_sem N hN x y hx hy]
    omega

/-- Witness for C3 at `N = 2`, `x = 1`, `y = 2`. -/
theorem c3_ctrl_add_correct_witness :
    ctrl_add 2 = .ok (ctrlAddGates 2) ∧
    applyGates (ctrlAddGates 2) (1 + 2 ^ 2 * 2) = 1 + 2 ^ 2 * 2 ∧
    applyGates (ctrlAddGates 2) (1 + 2 ^ 2 * 2 + 2 ^ (2 * 2))
      = applyGates (adderGates 2) (1 + 2 ^ 2 * 2) + 2 ^ (2 * 2) :=
  c3_ctrl_add_correct 2 1 2 (by decide) (by decide) (by decide)

theorem gateOk_wfB {L : Nat} {g : Gate} (h : gateOkB L g = true) : wfB g = true := by
  rw [gateOkB, Bool.and_eq_true, Bool.and_eq_true] at h
  exact h.1.1

theorem gateOk_posCtrlB {L : Nat} {g : Gate} (h : gateOkB L g = true) : posCtrlB g = true := by
  rw [gateOkB, Bool.and_eq_true, Bool.and_eq_true] at h
  exact h.1.2

theorem gateOk_wiresLtB {L : Nat} {g : Gate} (h : gateOkB L g = true) : wiresLtB L g = true := by
  rw [gateOkB, Bool.and_eq_true] at h
  exact h.2

theorem gateOk_elemB {L : Nat} {g : Gate} (h : gateOkB L g = true) : elemB g = true := by
  have h2 := gateOk_wfB h
  rw [wfB, Bool.and_eq_true] at h2
  exact h2.1

theorem elemB_remapGate (ws : List Nat) (g : Gate) : elemB (remapGate ws g) = elemB g := by
  cases g <;> rfl

theorem applyGate_involution (g : Gate) (hw : wfB g = true) (s : Nat) :
    applyGate g (applyGate g s) = s := by
  have hel : elemB g = true := by
    rw [wfB, Bool.and_eq_true] at hw
    exact hw.1
  have hfire : gFires g (applyGate g s) = gFires g s := by
    rw [wfB, Bool.and_eq_true] at hw
    have h2 := hw.2
    cases g with
    | x t => rfl
    | cx c t =>
        have hne : ¬t = c := by simpa [gCtrls, gTgt] using h2
        show (applyGate (Gate.cx c t) s).testBit c = s.testBit c
        exact gTgt_preserved (Gate.cx c t) rfl s hne
    | ccx c1 p1 c2 p2 t =>
        have hne : ¬t = c1 ∧ ¬t = c2 := by simpa [gCtrls, gTgt] using h2
        show (((applyGate (Gate.ccx c1 p1 c2 p2 t) s).testBit c1 == p1)
            && ((applyGate (Gate.ccx c1 p1 c2 p2 t) s).testBit c2 == p2))
          = ((s.testBit c1 == p1) && (s.testBit c2 == p2))
        rw [gTgt_preserved (Gate.ccx c1 p1 c2 p2 t) rfl s hne.1,
          gTgt_preserved (Gate.ccx c1 p1 c2 p2 t) rfl s hne.2]
    | reset t => simp [elemB] at hel
    | add aws bws => simp [elemB] at hel
    | cadd c aws bws => simp [elemB] at hel
  apply Nat.eq_of_testBit_eq
  intro j
  rw [testBit_applyGate_elem g hel, testBit_applyGate_elem g hel, hfire]
  by_cases h : gTgt g = j
  · rw [if_pos h, if_pos h]
    cases s.testBit j <;> cases gFires g s <;> rfl
  · rw [if_neg h, if_neg h]

theorem applyGates_reverse_cancel (gs : List Gate) (hw : ∀ g ∈ gs, wfB g = true) :
    ∀ s, applyGates (gs ++ gs.reverse) s = s := by
  induction gs with
  | nil => intro s; rfl
  | cons g gs ih =>
      intro s
      have h1 : (g :: gs) ++ (g :: gs).reverse = g :: ((gs ++ gs.reverse) ++ [g]) := by
        simp
      rw [h1, applyGates_cons, applyGates_append,
        ih (fun g' hg' => hw g' (List.mem_cons_of_mem _ hg')) (applyGate g s),
        applyGates_cons, applyGates_nil]
      exact applyGate_involution g (hw g (List.mem_cons_self _ _)) s

theorem applyGate_zero (g : Gate) (hp : posCtrlB g = true) : applyGate g 0 = 0 := by
  cases g with
  | cx c t =>
      show (if (0 : Nat).testBit c then flipBit 0 t else 0) = 0
      rw [if_neg (by rw [Nat.zero_testBit]; exact Bool.false_ne_true)]
  | ccx c1 p1 c2 p2 t =>
      have hp1 : p1 = true := hp
      show (if (0 : Nat).testBit c1 = p1 ∧ (0 : Nat).testBit c2 = p2
            then flipBit 0 t else 0) = 0
      rw [if_neg]
      intro hcon
      rw [Nat.zero_testBit, hp1] at hcon
      exact Bool.false_ne_true hcon.1
  | x t => simp [posCtrlB] at hp
  | reset t => simp [posCtrlB] at hp
  | add aws bws => simp [posCtrlB] at hp
  | cadd c aws bws => simp [posCtrlB] at hp

theorem applyGates_zero (gs : List Gate) (hp : ∀ g ∈ gs, posCtrlB g = true) :
    applyGates gs 0 = 0 := by
  induction gs with
  | nil => rfl
  | cons g gs ih =>
      rw [applyGates_cons, applyGate_zero g (hp g (List.mem_cons_self _ _))]
      exact ih fun g' hg' => hp g' (List.mem_cons_of_mem _ hg')

theorem adder_gates_ok (N : Nat) (hN : 1 ≤ N) :
    ∀ g ∈ adderGates N, gateOkB (2 * N) g = true := by
  intro g hg
  rw [adderGates] at hg
  simp only [List.mem_append] at hg
  rcases hg with ((((((h | h) | h) | h) | h) | h) | h)
  · obtain ⟨i, hi, rfl⟩ := List.mem_map.1 h
    simp only [revRange, List.mem_reverse, List.mem_range'_1] at hi
    simp [gateOkB, wfB, posCtrlB, wiresLtB, elemB, gTgt, gCtrls]
    omega
  · obtain ⟨i, hi, rfl⟩ := List.mem_map.1 h
    simp only [revRange, List.mem_reverse, List.mem_range'_1] at hi
    simp [gateOkB, wfB, posCtrlB, wiresLtB, elemB, gTgt, gCtrls]
    omega
  · obtain ⟨i, hi, rfl⟩ := List.mem_map.1 h
    rw [List.mem_range] at hi
    simp [gateOkB, wfB, posCtrlB, wiresLtB, elemB, gTgt, gCtrls]
    omega
  · obtain ⟨l, hl, hgl⟩ := List.mem_flatten.1 h
    obtain ⟨i, hi, rfl⟩ := List.mem_map.1 hl
    simp only [revRange, List.mem_reverse, List.mem_range'_1] at hi
    simp only [List.mem_cons, List.mem_singleton, List.not_mem_nil, or_false] at hgl
    rcases hgl with rfl | rfl
    · simp [gateOkB, wfB, posCtrlB, wiresLtB, elemB, gTgt, gCtrls]
      omega
    · simp [gateOkB, wfB, posCtrlB, wiresLtB, elemB, gTgt, gCtrls]
      omega
  · rcases List.mem_singleton.1 h with rfl
    simp [gateOkB, wfB, posCtrlB, wiresLtB, elemB, gTgt, gCtrls]
    omega
  · obtain ⟨i, hi, rfl⟩ := List.mem_map.1 h
    rw [List.mem_range'_1] at hi
    simp [gateOkB, wfB, posCtrlB, wiresLtB, elemB, gTgt, gCtrls]
    omega
  · obtain ⟨i, hi, rfl⟩ := List.mem_map.1 h
    rw [List.mem_range'_1] at hi
    simp [gateOkB, wfB, posCtrlB, wiresLtB, elemB, gTgt, gCtrls]
    omega

theorem ctrlAdd_gates_ok (N : Nat) (hN : 1 ≤ N) :
    ∀ g ∈ ctrlAddGates N, gateOkB (2 * N + 1) g = true := by
  intro g hg
  rw [ctrlAddGates] at hg
  simp only [List.mem_append] at hg
  rcases hg with ((((((h | h) | h) | h) | h) | h) | h)
  · obtain ⟨i, hi, rfl⟩ := List.mem_map.1 h
    simp only [revRange, List.mem_reverse, List.mem_range'_1] at hi
    simp [gateOkB, wfB, posCtrlB, wiresLtB, elemB, gTgt, gCtrls]
    omega
  · obtain ⟨i, hi, rfl⟩ := List.mem_map.1 h
    simp only [revRange, List.mem_reverse, List.mem_range'_1] at hi
    simp [gateOkB, wfB, posCtrlB, wiresLtB, elemB, gTgt, gCtrls]
    omega
  · obtain ⟨i, hi, rfl⟩ := List.mem_map.1 h
    rw [List.mem_range] at hi
    simp [gateOkB, wfB, posCtrlB, wiresLtB, elemB, gTgt, gCtrls]
    omega
  · obtain ⟨l, hl, hgl⟩ := List.mem_flatten.1 h
    obtain ⟨i, hi, rfl⟩ := List.mem_map.1 hl
    simp only [revRange, List.mem_reverse, List.mem_range'_1] at hi
    simp only [List.mem_cons, List.mem_singleton, List.not_mem_nil, or_false] at hgl
    rcases hgl with rfl | rfl
    · simp [gateOkB, wfB, posCtrlB, wiresLtB, elemB, gTgt, gCtrls]
      omega
    · simp [gateOkB, wfB, posCtrlB, wiresLtB, elemB, gTgt, gCtrls]
      omega
  · rcases List.mem_singleton.1 h with rfl
    simp [gateOkB, wfB, posCtrlB, wiresLtB, elemB, gTgt, gCtrls]
    omega
  · obtain ⟨i, hi, rfl⟩ := List.mem_map.1 h
    rw [List.mem_range'_1] at hi
    simp [gateOkB, wfB, posCtrlB, wiresLtB, elemB, gTgt, gCtrls]
    omega
  · obtain ⟨i, hi, rfl⟩ := List.mem_map.1 h
    rw [List.mem_range'_1] at hi
    simp [gateOkB, wfB, posCtrlB, wiresLtB, elemB, gTgt, gCtrls]
    omega

theorem cmpr_gates_ok (N : Nat) (hN : 2 ≤ N) :
    ∀ g ∈ cmprGates N, gateOkB (2 * N + 2) g = true := by
  intro g hg
  rw [cmprGates] at hg
  simp only [List.mem_append] at hg
  rcases hg with ((((((((((h | h) | h) | h) | h) | h) | h) | h) | h) | h) | h)
  · obtain ⟨i, hi, rfl⟩ := List.mem_map.1 h
    rw [List.mem_range] at hi
    simp [gateOkB, wfB, posCtrlB, wiresLtB, elemB, gTgt, gCtrls]
    omega
  · rcases List.mem_singleton.1 h with rfl
    simp [gateOkB, wfB, posCtrlB, wiresLtB, elemB, gTgt, gCtrls]
    omega
  · obtain ⟨i, hi, rfl⟩ := List.mem_map.1 h
    rw [List.mem_range'_1] at hi
    simp [gateOkB, wfB, posCtrlB, wiresLtB, elemB, gTgt, gCtrls]
    omega
  · rcases List.mem_singleton.1 h with rfl
    simp [gateOkB, wfB, posCtrlB, wiresLtB, elemB, gTgt, gCtrls]
    omega
  · rcases List.mem_singleton.1 h with rfl
    simp [gateOkB, wfB, posCtrlB, wiresLtB, elemB, gTgt, gCtrls]
    omega
  · obtain ⟨i, hi, rfl⟩ := List.mem_map.1 h
    rw [List.mem_range'_1] at hi
    simp [gateOkB, wfB, posCtrlB, wiresLtB, elemB, gTgt, gCtrls, chainW]
    split_ifs <;> simp <;> omega
  · obtain ⟨i, hi, rfl⟩ := List.mem_map.1 h
    rw [List.mem_range'_1] at hi
    simp [gateOkB, wfB, posCtrlB, wiresLtB, elemB, gTgt, gCtrls, chainW]
    split_ifs <;> simp <;> omega
  · rcases List.mem_singleton.1 h with rfl
    simp [gateOkB, wfB, posCtrlB, wiresLtB, elemB, gTgt, gCtrls]
    omega
  · obtain ⟨i, hi, rfl⟩ := List.mem_map.1 h
    rw [List.mem_range'_1] at hi
    simp [gateOkB, wfB, posCtrlB, wiresLtB, elemB, gTgt, gCtrls]
    omega
  · rcases List.mem_singleton.1 h with rfl
    simp [gateOkB, wfB, posCtrlB, wiresLtB, elemB, gTgt, gCtrls]
    omega
  · obtain ⟨i, hi, rfl⟩ := List.mem_map.1 h
    rw [List.mem_range] at hi
    simp [gateOkB, wfB, posCtrlB, wiresLtB, elemB, gTgt, gCtrls]
    omega

theorem divider_ripple_elem (N : Nat) (hN : 1 ≤ N) :
    ∀ g ∈ dividerGates N false, elemB g = true := by
  intro g hg
  rw [dividerGates] at hg
  rcases List.mem_append.1 hg with h | h
  · obtain ⟨l, hl, hgl⟩ := List.mem_flatten.1 h
    obtain ⟨i, hi, rfl⟩ := List.mem_map.1 hl
    have hit : dividerIter N false i
        = (yWires N i).map Gate.x ++
          remapGates (bWires N ++ yWires N i) (adderGates N) ++
          (yWires N i).map Gate.x ++
          [Gate.cx ((yWires N i).getD (N - 1) 0) (2 * N + (N - i))] ++
          remapGates (bWires N ++ yWires N i ++ [2 * N + (N - i)]) (ctrlAddGates N) ++
          [Gate.x (2 * N + (N - i))] := rfl
    rw [hit] at hgl
    simp only [List.mem_append] at hgl
    rcases hgl with ((((h2 | h2) | h2) | h2) | h2) | h2
    · obtain ⟨w, _, rfl⟩ := List.mem_map.1 h2
      rfl
    · obtain ⟨g', hg', rfl⟩ := List.mem_map.1 h2
      rw [elemB_remapGate]
      exact gateOk_elemB (adder_gates_ok N hN g' hg')
    · obtain ⟨w, _, rfl⟩ := List.mem_map.1 h2
      rfl
    · rcases List.mem_singleton.1 h2 with rfl
      rfl
    · obtain ⟨g', hg', rfl⟩ := List.mem_map.1 h2
      rw [elemB_remapGate]
      exact gateOk_elemB (ctrlAdd_gates_ok N hN g' hg')
    · rcases List.mem_singleton.1 h2 with rfl
      rfl
  · have hfin : dividerFinal N false
        = (aWires N).map Gate.x ++
          remapGates (bWires N ++ aWires N) (adderGates N) ++
          (aWires N).map Gate.x ++
          [Gate.cx (N - 1) (2 * N)] ++
          remapGates (bWires N ++ aWires N ++ [2 * N]) (ctrlAddGates N) ++
          [Gate.x (2 * N)] := rfl
    rw [hfin] at h
    simp only [List.mem_append] at h
    rcases h with ((((h2 | h2) | h2) | h2) | h2) | h2
    · obtain ⟨w, _, rfl⟩ := List.mem_map.1 h2
      rfl
    · obtain ⟨g', hg', rfl⟩ := List.mem_map.1 h2
      rw [elemB_remapGate]
      exact gateOk_elemB (adder_gates_ok N hN g' hg')
    · obtain ⟨w, _, rfl⟩ := List.mem_map.1 h2
      rfl
    · rcases List.mem_singleton.1 h2 with rfl
      rfl
    · obtain ⟨g', hg', rfl⟩ := List.mem_map.1 h2
      rw [elemB_remapGate]
      exact gateOk_elemB (ctrlAdd_gates_ok N hN g' hg')
    · rcases List.mem_singleton.1 h2 with rfl
      rfl

/-- C7: for each fragment builder at a valid width — `adder(N)` and
`ctrl_add(N)` for `N ≥ 1`, `cmpr(N)` for `N ≥ 2` — running the produced
circuit twice on the all-zero state returns every wire to zero, and running
its gate sequence followed by the same gates in reverse order is the identity
on every state. -/
theorem c7_involution (N : Nat) (hN : 1 ≤ N) (s : Nat) :
    applyGates (adderGates N) (applyGates (adderGates N) 0) = 0 ∧
    applyGates (adderGates N ++ (adderGates N).reverse) s = s ∧
    applyGates (ctrlAddGates N) (applyGates (ctrlAddGates N) 0) = 0 ∧
    applyGates (ctrlAddGates N ++ (ctrlAddGates N).reverse) s = s ∧
    (2 ≤ N →
      applyGates (cmprGates N) (applyGates (cmprGates N) 0) = 0 ∧
      applyGates (cmprGates N ++ (cmprGates N).reverse) s = s) := by
  have hza : applyGates (adderGates N) 0 = 0 :=
    applyGates_zero _ fun g hg => gateOk_posCtrlB (adder_gates_ok N hN g hg)
  have hzc : applyGates (ctrlAddGates N) 0 = 0 :=
    applyGates_zero _ fun g hg => gateOk_posCtrlB (ctrlAdd_gates_ok N hN g hg)
  refine ⟨by rw [hza]; exact hza, ?_, by rw [hzc]; exact hzc, ?_, fun h2 => ⟨?_, ?_⟩⟩
  · exact applyGates_reverse_cancel _
      (fun g hg => gateOk_wfB (adder_gates_ok N hN g hg)) s
  · exact applyGates_reverse_cancel _
      (fun g hg => gateOk_wfB (ctrlAdd_gates_ok N hN g hg)) s
  · have hzm : applyGates (cmprGates N) 0 = 0 :=
      applyGates_zero _ fun g hg => gateOk_posCtrlB (cmpr_gates_ok N h2 g hg)
    rw [hzm]
    exact hzm
  · exact applyGates_reverse_cancel _
      (fun g hg => gateOk_wfB (cmpr_gates_ok N h2 g hg)) s

/-- Witness for C7 at `N = 2`, `s = 13`. -/
theorem c7_involution_witness :
    applyGates (adderGates 2) (applyGates (adderGates 2) 0) = 0 ∧
    applyGates (adderGates 2 ++ (adderGates 2).reverse) 13 = 13 ∧
    applyGates (ctrlAddGates 2) (applyGates (ctrlAddGates 2) 0) = 0 ∧
    applyGates (ctrlAddGates 2 ++ (ctrlAddGates 2).reverse) 13 = 13 ∧
    (2 ≤ 2 →
      applyGates (cmprGates 2) (applyGates (cmprGates 2) 0) = 0 ∧
      applyGates (cmprGates 2 ++ (cmprGates 2).reverse) 13 = 13) :=
  c7_involution 2 (by decide) 13

/-- C9 (amended): every gate emitted by the builders `adder(N)`, `ctrl_add(N)`
(width `N ≥ 1`), `cmpr(N)` (width `N ≥ 2`) and by `long_division_divider` on
its default ripple-carry path is one of the three reversible bit-flip gates
(`x`, `cx`, `ccx`). -/
theorem c9_all_elementary (N : Nat) (hN : 1 ≤ N) :
    (adderGates N).all elemB = true ∧
    (ctrlAddGates N).all elemB = true ∧
    (2 ≤ N → (cmprGates N).all elemB = true) ∧
    (dividerGates N false).all elemB = true := by
  refine ⟨?_, ?_, fun h2 => ?_, ?_⟩
  · exact List.all_eq_true.2 fun g hg => gateOk_elemB (adder_gates_ok N hN g hg)
  · exact List.all_eq_true.2 fun g hg => gateOk_elemB (ctrlAdd_gates_ok N hN g hg)
  · exact List.all_eq_true.2 fun g hg => gateOk_elemB (cmpr_gates_ok N h2 g hg)
  · exact List.all_eq_true.2 fun g hg => divider_ripple_elem N hN g hg

/-- Witness for C9 at `N = 2`. -/
theorem c9_all_elementary_witness :
    (adderGates 2).all elemB = true ∧
    (ctrlAddGates 2).all elemB = true ∧
    (2 ≤ 2 → (cmprGates 2).all elemB = true) ∧
    (dividerGates 2 false).all elemB = true :=
  c9_all_elementary 2 (by decide)

/-- C9 counterexample: with the Fourier option, `long_division_divider(1, true)`
returns a circuit containing the external `DraperQFTAdder` fragments, which are
not among the three reversible bit-flip gates. -/
theorem c9_counterexample :
    long_division_divider 1 true = .ok (dividerGates 1 true) ∧
    (dividerGates 1 true).all elemB = false := by
  exact ⟨rfl, rfl⟩

theorem gateOk_tgtLtB {L : Nat} {g : Gate} (h : gateOkB L g = true) : tgtLtB L g = true := by
  have h2 := gateOk_wiresLtB h
  rw [wiresLtB, Bool.and_eq_true] at h2
  rw [tgtLtB]
  exact h2.1

theorem vec_bridge_bit (gs : List Gate) (k L : Nat) (inp : Nat → Nat) (pred : Nat → Bool)
    (h1 : gs.all elemB = true) (h2 : gs.all (tgtLtB L) = true) (w : Nat)
    (hrun : (vApplyGates (2 ^ 2 ^ k - 1) gs (scenVec inp L k)).getD w 0 = vecPow pred 0 k)
    (j : Nat) (hj : j < 2 ^ k) (hin : inp j < 2 ^ L) :
    (applyGates gs (inp j)).testBit w = pred j := by
  have h2' : gs.all (tgtLtB (scenVec inp L k).length) = true := by
    rw [length_scenVec]
    exact h2
  have hfin := vCorr_run (2 ^ k) gs (scenVec inp L k) h1 h2' hj (inp j)
    (scenVec_corr inp L k hj hin)
  rw [hfin w, hrun, testBit_vecPow pred 0 k hj, Nat.zero_add]

set_option maxHeartbeats 1000000 in
theorem c4run2_full :
    vApplyGates (2 ^ 2 ^ 4 - 1) (cmprGates 2) (scenVec (fun j => j) 6 4) =
      scenVec (c4out 2) 6 4 := by decide

set_option maxHeartbeats 1000000 in
theorem c4run3_full :
    vApplyGates (2 ^ 2 ^ 6 - 1) (cmprGates 3) (scenVec (fun j => j) 8 6) =
      scenVec (c4out 3) 8 6 := by decide

set_option maxHeartbeats 1000000 in
theorem c4run4_lt :
    (vApplyGates (2 ^ 2 ^ 8 - 1) (cmprGates 4) (scenVec (fun j => j) 10 8)).getD 9 0 =
      vecPow (c4lt 4) 0 8 := by decide

set_option maxHeartbeats 2000000 in
theorem c4run5_lt :
    (vApplyGates (2 ^ 2 ^ 10 - 1) (cmprGates 5) (scenVec (fun j => j) 12 10)).getD 11 0 =
      vecPow (c4lt 5) 0 10 := by decide

set_option maxHeartbeats 4000000 in
theorem c4run6_lt :
    (vApplyGates (2 ^ 2 ^ 12 - 1) (cmprGates 6) (scenVec (fun j => j) 14 12)).getD 13 0 =
      vecPow (c4lt 6) 0 12 := by decide

/-- C4 (amended): for widths `N ∈ {2..6}` and all `x, y < 2^N` loaded as
`a = x`, `b = y` with both ancilla wires clear, the comparator `cmpr(N)` always
ends with ancilla bit 1 equal to `[x < y]`; for `N ∈ {2, 3}` it additionally
restores `a`, `b` and leaves ancilla bit 0 clear (full state
`x + 2^N*y + 2^(2N+1)*[x < y]`).  (For `N ≥ 4` the mirrored "uncompute" pass
garbles `a`, `b` and ancilla bit 0, and for no width does the ancilla pair
distinguish `x = y` from `x > y`.) -/
theorem c4_cmpr_behavior :
    ∀ N, 2 ≤ N → N ≤ 6 → ∀ x, x < 2 ^ N → ∀ y, y < 2 ^ N →
      (applyGates (cmprGates N) (x + 2 ^ N * y)).testBit (2 * N + 1) = decide (x < y) ∧
      (N ≤ 3 → applyGates (cmprGates N) (x + 2 ^ N * y)
          = x + 2 ^ N * y + 2 ^ (2 * N + 1) * (decide (x < y)).toNat) := by
  intro N hN2 hN6 x hx y hy
  interval_cases N
  · -- N = 2: full restoration, bit fact derived from it
    norm_num at hx hy
    have h1 : (cmprGates 2).all elemB = true :=
      List.all_eq_true.2 fun g hg => gateOk_elemB (cmpr_gates_ok 2 (by norm_num) g hg)
    have h2 : (cmprGates 2).all (tgtLtB 6) = true :=
      List.all_eq_true.2 fun g hg => gateOk_tgtLtB (cmpr_gates_ok 2 (by norm_num) g hg)
    have hb : (c4lt 2 (x + 2 ^ 2 * y)).toNat ≤ 1 := by
      cases c4lt 2 (x + 2 ^ 2 * y) <;> simp
    have key := vec_bridge (cmprGates 2) 4 6 (fun j => j) (c4out 2) h1 h2 c4run2_full
      (x + 2 ^ 2 * y) (by norm_num; omega) (by norm_num; omega)
      (by simp only [c4out]; norm_num at hb ⊢; omega)
    have ex : c4x 2 (x + 2 ^ 2 * y) = x := by simp only [c4x]; norm_num; omega
    have ey : c4y 2 (x + 2 ^ 2 * y) = y := by simp only [c4y]; norm_num; omega
    have hco : c4out 2 (x + 2 ^ 2 * y)
        = x + 2 ^ 2 * y + 2 ^ (2 * 2 + 1) * (decide (x < y)).toNat := by
      rw [c4out, c4lt, ex, ey]
    rw [key, hco]
    constructor
    · have hu : x + 2 ^ 2 * y < 2 ^ (2 * 2 + 1) := by norm_num; omega
      rw [testBit_pack2 (2 * 2 + 1) (x + 2 ^ 2 * y) hu (decide (x < y)).toNat (2 * 2 + 1),
        if_neg (lt_irrefl _), Nat.sub_self]
      cases decide (x < y) <;> rfl
    · intro _
      rfl
  · -- N = 3
    norm_num at hx hy
    have h1 : (cmprGates 3).all elemB = true :=
      List.all_eq_true.2 fun g hg => gateOk_elemB (cmpr_gates_ok 3 (by norm_num) g hg)
    have h2 : (cmprGates 3).all (tgtLtB 8) = true :=
      List.all_eq_true.2 fun g hg => gateOk_tgtLtB (cmpr_gates_ok 3 (by norm_num) g hg)
    have hb : (c4lt 3 (x + 2 ^ 3 * y)).toNat ≤ 1 := by
      cases c4lt 3 (x + 2 ^ 3 * y) <;> simp
    have key := vec_bridge (cmprGates 3) 6 8 (fun j => j) (c4out 3) h1 h2 c4run3_full
      (x + 2 ^ 3 * y) (by norm_num; omega) (by norm_num; omega)
      (by simp only [c4out]; norm_num at hb ⊢; omega)
    have ex : c4x 3 (x + 2 ^ 3 * y) = x := by simp only [c4x]; norm_num; omega
    have ey : c4y 3 (x + 2 ^ 3 * y) = y := by simp only [c4y]; norm_num; omega
    have hco : c4out 3 (x + 2 ^ 3 * y)
        = x + 2 ^ 3 * y + 2 ^ (2 * 3 + 1) * (decide (x < y)).toNat := by
      rw [c4out, c4lt, ex, ey]
    rw [key, hco]
    constructor
    · have hu : x + 2 ^ 3 * y < 2 ^ (2 * 3 + 1) := by norm_num; omega
      rw [testBit_pack2 (2 * 3 + 1) (x + 2 ^ 3 * y) hu (decide (x < y)).toNat (2 * 3 + 1),
        if_neg (lt_irrefl _), Nat.sub_self]
      cases decide (x < y) <;> rfl
    · intro _
      rfl
  · -- N = 4: only the ancilla-1 fact
    norm_num at hx hy
    have h1 : (cmprGates 4).all elemB = true :=
      List.all_eq_true.2 fun g hg => gateOk_elemB (cmpr_gates_ok 4 (by norm_num) g hg)
    have h2 : (cmprGates 4).all (tgtLtB 10) = true :=
      List.all_eq_true.2 fun g hg => gateOk_tgtLtB (cmpr_gates_ok 4 (by norm_num) g hg)
    have key := vec_bridge_bit (cmprGates 4) 8 10 (fun j => j) (c4lt 4) h1 h2 9 c4run4_lt
      (x + 2 ^ 4 * y) (by norm_num; omega) (by norm_num; omega)
    have ex : c4x 4 (x + 2 ^ 4 * y) = x := by simp only [c4x]; norm_num; omega
    have ey : c4y 4 (x + 2 ^ 4 * y) = y := by simp only [c4y]; norm_num; omega
    rw [c4lt, ex, ey] at key
    exact ⟨key, fun h3 => absurd h3 (by norm_num)⟩
  · -- N = 5
    norm_num at hx hy
    have h1 : (cmprGates 5).all elemB = true :=
      List.all_eq_true.2 fun g hg => gateOk_elemB (cmpr_gates_ok 5 (by norm_num) g hg)
    have h2 : (cmprGates 5).all (tgtLtB 12) = true :=
      List.all_eq_true.2 fun g hg => gateOk_tgtLtB (cmpr_gates_ok 5 (by norm_num) g hg)
    have key := vec_bridge_bit (cmprGates 5) 10 12 (fun j => j) (c4lt 5) h1 h2 11 c4run5_lt
      (x + 2 ^ 5 * y) (by norm_num; omega) (by norm_num; omega)
    have ex : c4x 5 (x + 2 ^ 5 * y) = x := by simp only [c4x]; norm_num; omega
    have ey : c4y 5 (x + 2 ^ 5 * y) = y := by simp only [c4y]; norm_num; omega
    rw [c4lt, ex, ey] at key
    exact ⟨key, fun h3 => absurd h3 (by norm_num)⟩
  · -- N = 6
    norm_num at hx hy
    have h1 : (cmprGates 6).all elemB = true :=
      List.all_eq_true.2 fun g hg => gateOk_elemB (cmpr_gates_ok 6 (by norm_num) g hg)
    have h2 : (cmprGates 6).all (tgtLtB 14) = true :=
      List.all_eq_true.2 fun g hg => gateOk_tgtLtB (cmpr_gates_ok 6 (by norm_num) g hg)
    have key := vec_bridge_bit (cmprGates 6) 12 14 (fun j => j) (c4lt 6) h1 h2 13 c4run6_lt
      (x + 2 ^ 6 * y) (by norm_num; omega) (by norm_num; omega)
    have ex : c4x 6 (x + 2 ^ 6 * y) = x := by simp only [c4x]; norm_num; omega
    have ey : c4y 6 (x + 2 ^ 6 * y) = y := by simp only [c4y]; norm_num; omega
    rw [c4lt, ex, ey] at key
    exact ⟨key, fun h3 => absurd h3 (by norm_num)⟩

/-- C4 counterexample.  First two equations: at width 2 the inputs
`(x, y) = (0, 0)` (equal) and `(x, y) = (1, 0)` (greater) both leave the
circuit's state unchanged, so the two ancilla bits end `(0, 0)` in both cases
and cannot identify which of `x = y` / `x > y` holds.  Third equation: at
width 4 with `x = y = 2` the final state is `4 + 2^4*4 + 2^8*1`: registers
`a`, `b` are not restored (both end at 4, not 2) and ancilla bit 0 is left
garbled at 1. -/
theorem c4_counterexample :
    applyGates (cmprGates 2) (0 + 2 ^ 2 * 0) = 0 ∧
    applyGates (cmprGates 2) (1 + 2 ^ 2 * 0) = 1 ∧
    applyGates (cmprGates 4) (2 + 2 ^ 4 * 2) = 4 + 2 ^ 4 * 4 + 2 ^ 8 * 1 := by decide

/-- C4 witness: the amended theorem applied at `N = 3`, `x = 2`, `y = 5`. -/
theorem c4_cmpr_behavior_witness :
    (applyGates (cmprGates 3) (2 + 2 ^ 3 * 5)).testBit (2 * 3 + 1) = decide (2 < 5) ∧
    (3 ≤ 3 → applyGates (cmprGates 3) (2 + 2 ^ 3 * 5)
        = 2 + 2 ^ 3 * 5 + 2 ^ (2 * 3 + 1) * (decide ((2 : Nat) < 5)).toNat) :=
  c4_cmpr_behavior 3 (by norm_num) (by norm_num) 2 (by norm_num) 5 (by norm_num)

theorem testBit_setBit (s w : Nat) (b : Bool) (j : Nat) :
    (setBit s w b).testBit j = if j = w then b else s.testBit j := by
  rw [setBit]
  by_cases h : s.testBit w = b
  · rw [if_pos h]
    by_cases hj : j = w
    · rw [if_pos hj, hj, h]
    · rw [if_neg hj]
  · rw [if_neg h, testBit_flipBit]
    by_cases hj : j = w
    · rw [if_pos hj, hj, decide_eq_true (rfl : w = w)]
      cases hsw : s.testBit w <;> cases b <;> simp_all
    · rw [if_neg hj, decide_eq_false (fun hh => hj hh.symm), Bool.xor_false]

theorem testBit_writeBits_notMem (ws : List Nat) {j : Nat} (hj : j ∉ ws) :
    ∀ v s, (writeBits ws v s).testBit j = s.testBit j := by
  induction ws with
  | nil => intro v s; rfl
  | cons w ws ih =>
      intro v s
      have hjw : j ≠ w := fun hh => hj (hh ▸ List.mem_cons_self _ _)
      have hjt : j ∉ ws := fun hh => hj (List.mem_cons_of_mem _ hh)
      show (writeBits ws (v / 2) (setBit s w (v % 2 = 1))).testBit j = s.testBit j
      rw [ih hjt, testBit_setBit, if_neg hjw]

theorem testBit_writeBits_mem (ws : List Nat) (hnd : ws.Nodup) {j : Nat} (hj : j ∈ ws) :
    ∀ v s, (writeBits ws v s).testBit j = v.testBit (wIdx ws j) := by
  induction ws with
  | nil => cases hj
  | cons w ws ih =>
      intro v s
      rw [List.nodup_cons] at hnd
      show (writeBits ws (v / 2) (setBit s w (v % 2 = 1))).testBit j
        = v.testBit (wIdx (w :: ws) j)
      by_cases hjw : j = w
      · have hout : j ∉ ws := hjw ▸ hnd.1
        rw [testBit_writeBits_notMem ws hout, testBit_setBit, if_pos hjw]
        show decide (v % 2 = 1) = v.testBit (wIdx (w :: ws) j)
        rw [wIdx, if_pos hjw]
        rw [Nat.testBit_zero]
      · have hmem : j ∈ ws := by
          rcases List.mem_cons.1 hj with h | h
          · exact absurd h hjw
          · exact h
        rw [ih hnd.2 hmem, wIdx, if_neg hjw, ← Nat.testBit_div_two]

theorem testBit_readBits (ws : List Nat) (s : Nat) :
    ∀ k, (readBits ws s).testBit k
      = if k < ws.length then s.testBit (ws.getD k 0) else false := by
  induction ws with
  | nil =>
      intro k
      rw [if_neg (by simp)]
      exact Nat.zero_testBit k
  | cons w ws ih =>
      intro k
      show ((s.testBit w).toNat + 2 * readBits ws s).testBit k = _
      cases k with
      | zero =>
          rw [if_pos (by simp), Nat.testBit_zero]
          show decide (((s.testBit w).toNat + 2 * readBits ws s) % 2 = 1)
            = s.testBit ((w :: ws).getD 0 0)
          have hb : (s.testBit w).toNat ≤ 1 := by cases s.testBit w <;> simp
          have hmod : ((s.testBit w).toNat + 2 * readBits ws s) % 2
              = (s.testBit w).toNat := by
            omega
          have hg : (w :: ws).getD 0 0 = w := rfl
          rw [hmod, hg]
          cases s.testBit w <;> rfl
      | succ k =>
          rw [← Nat.testBit_div_two]
          have hdiv : ((s.testBit w).toNat + 2 * readBits ws s) / 2 = readBits ws s := by
            have : (s.testBit w).toNat ≤ 1 := by cases s.testBit w <;> simp
            omega
          rw [hdiv, ih k]
          show _ = if k + 1 < ws.length + 1 then s.testBit (ws.getD k 0) else false
          by_cases hk : k < ws.length
          · rw [if_pos hk, if_pos (by omega)]
          · rw [if_neg hk, if_neg (by omega)]

theorem readBits_lt (ws : List Nat) (s : Nat) : readBits ws s < 2 ^ ws.length := by
  induction ws with
  | nil => show 0 < 2 ^ 0; norm_num
  | cons w ws ih =>
      show (s.testBit w).toNat + 2 * readBits ws s < 2 ^ (ws.length + 1)
      have hb : (s.testBit w).toNat ≤ 1 := by cases s.testBit w <;> simp
      have hp : 2 ^ (ws.length + 1) = 2 * 2 ^ ws.length := by ring
      omega

theorem readBits_append (l1 l2 : List Nat) (s : Nat) :
    readBits (l1 ++ l2) s = readBits l1 s + 2 ^ l1.length * readBits l2 s := by
  induction l1 with
  | nil => show readBits l2 s = 0 + 1 * readBits l2 s; ring
  | cons w l1 ih =>
      show (s.testBit w).toNat + 2 * readBits (l1 ++ l2) s
        = (s.testBit w).toNat + 2 * readBits l1 s + 2 ^ (l1.length + 1) * readBits l2 s
      rw [ih]
      have hp : 2 ^ (l1.length + 1) = 2 * 2 ^ l1.length := by ring
      rw [hp]
      ring

theorem writeBits_append (l1 l2 : List Nat) :
    ∀ v s, writeBits (l1 ++ l2) v s
      = writeBits l2 (v / 2 ^ l1.length) (writeBits l1 v s) := by
  induction l1 with
  | nil =>
      intro v s
      show writeBits l2 v s = writeBits l2 (v / 1) s
      rw [Nat.div_one]
  | cons w l1 ih =>
      intro v s
      show writeBits (l1 ++ l2) (v / 2) (setBit s w (v % 2 = 1))
        = writeBits l2 (v / 2 ^ (l1.length + 1)) (writeBits l1 (v / 2) (setBit s w (v % 2 = 1)))
      rw [ih]
      have he : v / 2 / 2 ^ l1.length = v / 2 ^ (l1.length + 1) := by
        rw [Nat.div_div_eq_div_mul]
        congr 1
        ring
      rw [he]

theorem writeBits_mod (ws : List Nat) :
    ∀ v s, writeBits ws v s = writeBits ws (v % 2 ^ ws.length) s := by
  induction ws with
  | nil => intro v s; rfl
  | cons w ws ih =>
      intro v s
      show writeBits ws (v / 2) (setBit s w (v % 2 = 1))
        = writeBits ws (v % 2 ^ (ws.length + 1) / 2)
            (setBit s w (v % 2 ^ (ws.length + 1) % 2 = 1))
      have h1 : v % 2 ^ (ws.length + 1) % 2 = v % 2 := by
        rw [Nat.mod_mod_of_dvd]
        exact ⟨2 ^ ws.length, by ring⟩
      have h2 : v % 2 ^ (ws.length + 1) / 2 = v / 2 % 2 ^ ws.length := by
        have hp : (2 : Nat) ^ (ws.length + 1) = 2 * 2 ^ ws.length := by ring
        rw [hp]
        exact Nat.mod_mul_right_div_self v 2 (2 ^ ws.length)
      rw [h1, h2, ih (v / 2)]

theorem writeBits_congr (ws : List Nat) {v v' : Nat} (s : Nat)
    (h : v % 2 ^ ws.length = v' % 2 ^ ws.length) :
    writeBits ws v s = writeBits ws v' s := by
  rw [writeBits_mod ws v s, writeBits_mod ws v' s, h]

theorem setBit_self (s w : Nat) : setBit s w (s.testBit w) = s := by
  rw [setBit, if_pos rfl]

theorem writeBits_readBits_self (ws : List Nat) : ∀ s, writeBits ws (readBits ws s) s = s := by
  induction ws with
  | nil => intro s; rfl
  | cons w ws ih =>
      intro s
      show writeBits ws (((s.testBit w).toNat + 2 * readBits ws s) / 2)
        (setBit s w (((s.testBit w).toNat + 2 * readBits ws s) % 2 = 1)) = s
      have hb : (s.testBit w).toNat ≤ 1 := by cases s.testBit w <;> simp
      have h1 : ((s.testBit w).toNat + 2 * readBits ws s) / 2 = readBits ws s := by omega
      have h2 : decide (((s.testBit w).toNat + 2 * readBits ws s) % 2 = 1) = s.testBit w := by
        have hm : ((s.testBit w).toNat + 2 * readBits ws s) % 2 = (s.testBit w).toNat := by
          omega
        rw [hm]
        cases s.testBit w <;> rfl
      rw [h1, h2, setBit_self, ih s]

theorem getD_mem_of_lt (l : List Nat) {k : Nat} (hk : k < l.length) : l.getD k 0 ∈ l := by
  rw [List.getD_eq_getElem l 0 hk]
  exact List.getElem_mem hk

theorem wIdx_lt (ws : List Nat) {j : Nat} (hj : j ∈ ws) : wIdx ws j < ws.length := by
  induction ws with
  | nil => cases hj
  | cons w ws ih =>
      show (if j = w then 0 else wIdx ws j + 1) < ws.length + 1
      by_cases hjw : j = w
      · rw [if_pos hjw]; omega
      · rw [if_neg hjw]
        have hmem : j ∈ ws := by
          rcases List.mem_cons.1 hj with h | h
          · exact absurd h hjw
          · exact h
        have := ih hmem
        omega

theorem getD_wIdx (ws : List Nat) {j : Nat} (hj : j ∈ ws) : ws.getD (wIdx ws j) 0 = j := by
  induction ws with
  | nil => cases hj
  | cons w ws ih =>
      show (w :: ws).getD (if j = w then 0 else wIdx ws j + 1) 0 = j
      by_cases hjw : j = w
      · rw [if_pos hjw]
        exact hjw.symm
      · rw [if_neg hjw]
        have hmem : j ∈ ws := by
          rcases List.mem_cons.1 hj with h | h
          · exact absurd h hjw
          · exact h
        show ws.getD (wIdx ws j) 0 = j
        exact ih hmem

theorem wIdx_getD (ws : List Nat) (hnd : ws.Nodup) :
    ∀ k, k < ws.length → wIdx ws (ws.getD k 0) = k := by
  induction ws with
  | nil => intro k hk; simp at hk
  | cons w ws ih =>
      intro k hk
      rw [List.nodup_cons] at hnd
      cases k with
      | zero =>
          show wIdx (w :: ws) w = 0
          rw [wIdx, if_pos rfl]
      | succ k =>
          have hk2 : k < ws.length := by
            simp at hk
            omega
          show wIdx (w :: ws) (ws.getD k 0) = k + 1
          have hmem : ws.getD k 0 ∈ ws := getD_mem_of_lt ws hk2
          have hne : ws.getD k 0 ≠ w := fun hh => hnd.1 (hh ▸ hmem)
          rw [wIdx, if_neg hne, ih hnd.2 k hk2]

theorem testBit_writeBits_pos (ws : List Nat) (hnd : ws.Nodup) {k : Nat}
    (hk : k < ws.length) (v s : Nat) :
    (writeBits ws v s).testBit (ws.getD k 0) = v.testBit k := by
  have hmem : ws.getD k 0 ∈ ws := getD_mem_of_lt ws hk
  rw [testBit_writeBits_mem ws hnd hmem, wIdx_getD ws hnd k hk]

theorem getD_inj (ws : List Nat) (hnd : ws.Nodup) {k t : Nat}
    (hk : k < ws.length) (ht : t < ws.length) (h : ws.getD k 0 = ws.getD t 0) : k = t := by
  have h1 := wIdx_getD ws hnd k hk
  have h2 := wIdx_getD ws hnd t ht
  rw [← h1, ← h2, h]

theorem readBits_writeBits_self (ws : List Nat) (hnd : ws.Nodup) {v : Nat}
    (hv : v < 2 ^ ws.length) (s : Nat) : readBits ws (writeBits ws v s) = v := by
  apply Nat.eq_of_testBit_eq
  intro k
  rw [testBit_readBits]
  by_cases hk : k < ws.length
  · rw [if_pos hk, testBit_writeBits_pos ws hnd hk]
  · rw [if_neg hk]
    exact (Nat.testBit_lt_two_pow
      (lt_of_lt_of_le hv (Nat.pow_le_pow_right (by norm_num) (by omega)))).symm

theorem writeBits_writeBits (ws : List Nat) (hnd : ws.Nodup) (v v' s : Nat) :
    writeBits ws v' (writeBits ws v s) = writeBits ws v' s := by
  apply Nat.eq_of_testBit_eq
  intro j
  by_cases hj : j ∈ ws
  · rw [testBit_writeBits_mem ws hnd hj, testBit_writeBits_mem ws hnd hj]
  · rw [testBit_writeBits_notMem ws hj, testBit_writeBits_notMem ws hj,
      testBit_writeBits_notMem ws hj]

theorem applyGate_lt (g : Gate) (hel : elemB g = true) {L t : Nat}
    (htl : gTgt g < L) (ht : t < 2 ^ L) : applyGate g t < 2 ^ L := by
  have hflip : flipBit t (gTgt g) < 2 ^ L := by
    rw [flipBit]
    exact Nat.xor_lt_two_pow ht
      (Nat.pow_lt_pow_right (by norm_num) htl)
  cases g with
  | x t' => exact hflip
  | cx c t' =>
      show (if t.testBit c then flipBit t t' else t) < 2 ^ L
      by_cases hc : t.testBit c
      · rw [if_pos hc]; exact hflip
      · rw [if_neg hc]; exact ht
  | ccx c1 p1 c2 p2 t' =>
      show (if t.testBit c1 = p1 ∧ t.testBit c2 = p2 then flipBit t t' else t) < 2 ^ L
      by_cases hc : t.testBit c1 = p1 ∧ t.testBit c2 = p2
      · rw [if_pos hc]; exact hflip
      · rw [if_neg hc]; exact ht
  | reset t' => simp [elemB] at hel
  | add aws bws => simp [elemB] at hel
  | cadd c aws bws => simp [elemB] at hel

theorem conj_gate (ws : List Nat) (hnd : ws.Nodup) (g : Gate) (hel : elemB g = true)
    (htl : gTgt g < ws.length) (hcl : ∀ c ∈ gCtrls g, c < ws.length) (s : Nat) :
    applyGate (remapGate ws g) s = writeBits ws (applyGate g (readBits ws s)) s := by
  have hremel : elemB (remapGate ws g) = true := by
    rw [elemB_remapGate]
    exact hel
  have hrt : gTgt (remapGate ws g) = ws.getD (gTgt g) 0 := by
    cases g with
    | x t => rfl
    | cx c t => rfl
    | ccx c1 p1 c2 p2 t => rfl
    | reset t => simp [elemB] at hel
    | add aws bws => simp [elemB] at hel
    | cadd c aws bws => simp [elemB] at hel
  have hfire : gFires (remapGate ws g) s = gFires g (readBits ws s) := by
    cases g with
    | x t => rfl
    | cx c t =>
        show s.testBit (ws.getD c 0) = (readBits ws s).testBit c
        rw [testBit_readBits ws s c,
          if_pos (hcl c (List.mem_singleton.2 rfl))]
    | ccx c1 p1 c2 p2 t =>
        show ((s.testBit (ws.getD c1 0) == p1) && (s.testBit (ws.getD c2 0) == p2))
          = (((readBits ws s).testBit c1 == p1) && ((readBits ws s).testBit c2 == p2))
        rw [testBit_readBits ws s c1, testBit_readBits ws s c2,
          if_pos (hcl c1 (List.mem_cons_self _ _)),
          if_pos (hcl c2 (List.mem_cons_of_mem _ (List.mem_singleton.2 rfl)))]
    | reset t => simp [elemB] at hel
    | add aws bws => simp [elemB] at hel
    | cadd c aws bws => simp [elemB] at hel
  apply Nat.eq_of_testBit_eq
  intro j
  rw [testBit_applyGate_elem _ hremel, hrt, hfire]
  by_cases hmem : j ∈ ws
  · have hk : wIdx ws j < ws.length := wIdx_lt ws hmem
    have hgd : ws.getD (wIdx ws j) 0 = j := getD_wIdx ws hmem
    rw [testBit_writeBits_mem ws hnd hmem, testBit_applyGate_elem g hel]
    have htb : (readBits ws s).testBit (wIdx ws j) = s.testBit j := by
      rw [testBit_readBits ws s, if_pos hk, hgd]
    by_cases he : gTgt g = wIdx ws j
    · rw [if_pos (by rw [he, hgd]), if_pos he, htb]
    · have hne : ws.getD (gTgt g) 0 ≠ j := by
        intro hh
        exact he (getD_inj ws hnd htl hk (hh.trans hgd.symm))
      rw [if_neg hne, if_neg he, htb]
  · have hne2 : ws.getD (gTgt g) 0 ≠ j := by
      intro hh
      exact hmem (hh ▸ getD_mem_of_lt ws htl)
    rw [if_neg hne2, testBit_writeBits_notMem ws hmem]

theorem conj_run (ws : List Nat) (hnd : ws.Nodup) (gs : List Gate)
    (hok : ∀ g ∈ gs, elemB g = true ∧ gTgt g < ws.length ∧ ∀ c ∈ gCtrls g, c < ws.length) :
    ∀ s, applyGates (remapGates ws gs) s = writeBits ws (applyGates gs (readBits ws s)) s := by
  induction gs with
  | nil =>
      intro s
      show s = writeBits ws (readBits ws s) s
      exact (writeBits_readBits_self ws s).symm
  | cons g gs ih =>
      intro s
      obtain ⟨hel, htl, hcl⟩ := hok g (List.mem_cons_self _ _)
      have hmap : remapGates ws (g :: gs) = remapGate ws g :: remapGates ws gs := rfl
      rw [hmap, applyGates_cons, applyGates_cons, conj_gate ws hnd g hel htl hcl s,
        ih (fun g' h' => hok g' (List.mem_cons_of_mem _ h'))]
      rw [readBits_writeBits_self ws hnd
        (applyGate_lt g hel htl (readBits_lt ws s)) s]
      exact writeBits_writeBits ws hnd _ _ s

theorem map_getD_left (l1 l2 : List Nat) :
    (List.range l1.length).map (fun w => (l1 ++ l2).getD w 0) = l1 := by
  apply List.ext_getElem
  · simp
  · intro i h1 h2
    rw [List.getElem_map, List.getElem_range]
    have hi : i < l1.length := by simpa using h2
    rw [List.getD_append _ _ _ _ hi, List.getD_eq_getElem l1 0 hi]

theorem map_getD_right (l1 l2 : List Nat) :
    (List.range' l1.length l2.length).map (fun w => (l1 ++ l2).getD w 0) = l2 := by
  apply List.ext_getElem
  · simp
  · intro i h1 h2
    rw [List.getElem_map, List.getElem_range']
    have hi : i < l2.length := by simpa using h2
    have he : (l1 ++ l2).getD (l1.length + 1 * i) 0 = l2.getD i 0 := by
      rw [List.getD_append_right _ _ _ _ (by omega)]
      congr 1
      omega
    rw [he, List.getD_eq_getElem l2 0 hi]

theorem remap_draperAdd (N : Nat) (l1 l2 : List Nat) (h1 : l1.length = N)
    (h2 : l2.length = N) :
    remapGates (l1 ++ l2) (draperAdd N) = [Gate.add l1 l2] := by
  show [Gate.add ((List.range N).map fun w => (l1 ++ l2).getD w 0)
    ((List.range' N N).map fun w => (l1 ++ l2).getD w 0)] = [Gate.add l1 l2]
  have ha : (List.range N).map (fun w => (l1 ++ l2).getD w 0) = l1 := by
    rw [← h1]
    exact map_getD_left l1 l2
  have hb : (List.range' N N).map (fun w => (l1 ++ l2).getD w 0) = l2 := by
    have he : List.range' N N = List.range' l1.length l2.length := by rw [h1, h2]
    rw [he]
    exact map_getD_right l1 l2
  rw [ha, hb]

theorem map_getD_mid (l1 l2 : List Nat) (n : Nat) (hn : n ≤ l2.length) :
    (List.range' l1.length n).map (fun w => (l1 ++ l2).getD w 0) = l2.take n := by
  apply List.ext_getElem
  · simp [hn]
  · intro i h1 h2
    rw [List.getElem_map, List.getElem_range']
    have hi : i < n := by simpa using h1
    have he : (l1 ++ l2).getD (l1.length + 1 * i) 0 = l2.getD i 0 := by
      rw [List.getD_append_right _ _ _ _ (by omega)]
      congr 1
      omega
    rw [he, List.getD_eq_getElem l2 0 (by omega), List.getElem_take]

theorem remap_draperCAdd (N : Nat) (cw : Nat) (l1 l2 : List Nat) (h1 : l1.length = N)
    (h2 : l2.length = N) :
    remapGates ([cw] ++ l1 ++ l2) (draperCAdd N) = [Gate.cadd cw l1 l2] := by
  show [Gate.cadd (([cw] ++ l1 ++ l2).getD 0 0)
    ((List.range' 1 N).map fun w => ([cw] ++ l1 ++ l2).getD w 0)
    ((List.range' (N + 1) N).map fun w => ([cw] ++ l1 ++ l2).getD w 0)] = [Gate.cadd cw l1 l2]
  have hc : ([cw] ++ l1 ++ l2).getD 0 0 = cw := rfl
  have ha : (List.range' 1 N).map (fun w => ([cw] ++ l1 ++ l2).getD w 0) = l1 := by
    have hassoc : [cw] ++ l1 ++ l2 = [cw] ++ (l1 ++ l2) := by simp
    have hr : List.range' 1 N = List.range' ([cw] : List Nat).length N := rfl
    rw [hassoc, hr, map_getD_mid [cw] (l1 ++ l2) N (by simp [h1])]
    rw [← h1, List.take_left]
  have hb : (List.range' (N + 1) N).map (fun w => ([cw] ++ l1 ++ l2).getD w 0) = l2 := by
    have hr : List.range' (N + 1) N = List.range' ([cw] ++ l1).length N := by
      rw [show ([cw] ++ l1).length = N + 1 from by simp [h1]]
    rw [hr, map_getD_mid ([cw] ++ l1) l2 N (le_of_eq h2.symm)]
    rw [← h2, List.take_length]
  rw [hc, ha, hb]

theorem gateOk_dest {L : Nat} {g : Gate} (h : gateOkB L g = true) :
    elemB g = true ∧ gTgt g < L ∧ ∀ c ∈ gCtrls g, c < L := by
  refine ⟨gateOk_elemB h, ?_, ?_⟩
  · have h2 := gateOk_wiresLtB h
    rw [wiresLtB, Bool.and_eq_true, decide_eq_true_eq] at h2
    exact h2.1
  · have h2 := gateOk_wiresLtB h
    rw [wiresLtB, Bool.and_eq_true, List.all_eq_true] at h2
    intro c hc
    have h3 := h2.2 c hc
    rw [decide_eq_true_eq] at h3
    exact h3

theorem add_site (N : Nat) (hN : 1 ≤ N) (l1 l2 : List Nat) (h1 : l1.length = N)
    (h2 : l2.length = N) (hnd : (l1 ++ l2).Nodup) (s : Nat) :
    applyGates (remapGates (l1 ++ l2) (adderGates N)) s = applyGate (Gate.add l1 l2) s := by
  have hlen : (l1 ++ l2).length = 2 * N := by
    rw [List.length_append, h1, h2]
    omega
  have hok : ∀ g ∈ adderGates N, elemB g = true ∧ gTgt g < (l1 ++ l2).length ∧
      ∀ c ∈ gCtrls g, c < (l1 ++ l2).length :=
    fun g hg => hlen ▸ gateOk_dest (adder_gates_ok N hN g hg)
  rw [conj_run (l1 ++ l2) hnd (adderGates N) hok s]
  have hread : readBits (l1 ++ l2) s = readBits l1 s + 2 ^ N * readBits l2 s := by
    rw [readBits_append, h1]
  have hxlt : readBits l1 s < 2 ^ N := by
    rw [← h1]
    exact readBits_lt l1 s
  have hylt : readBits l2 s < 2 ^ N := by
    rw [← h2]
    exact readBits_lt l2 s
  rw [hread, adder_sem N hN _ _ hxlt hylt]
  show writeBits (l1 ++ l2)
      (readBits l1 s + 2 ^ N * ((readBits l1 s + readBits l2 s) % 2 ^ N)) s
    = writeBits l2 ((readBits l1 s + readBits l2 s) % 2 ^ l2.length) s
  rw [writeBits_append l1 l2, h1]
  have hdiv : (readBits l1 s + 2 ^ N * ((readBits l1 s + readBits l2 s) % 2 ^ N)) / 2 ^ N
      = (readBits l1 s + readBits l2 s) % 2 ^ N := by
    rw [Nat.add_mul_div_left _ _ (by positivity), Nat.div_eq_of_lt hxlt, Nat.zero_add]
  have hmod : writeBits l1
      (readBits l1 s + 2 ^ N * ((readBits l1 s + readBits l2 s) % 2 ^ N)) s
      = writeBits l1 (readBits l1 s) s := by
    apply writeBits_congr
    rw [h1, Nat.add_mul_mod_self_left]
  rw [hdiv, hmod, writeBits_readBits_self l1 s, h2]

theorem cadd_site (N : Nat) (hN : 1 ≤ N) (l1 l2 : List Nat) (cw : Nat) (h1 : l1.length = N)
    (h2 : l2.length = N) (hnd : (l1 ++ l2).Nodup) (hcw : cw ∉ l1 ++ l2) (s : Nat) :
    applyGates (remapGates (l1 ++ l2 ++ [cw]) (ctrlAddGates N)) s
      = applyGate (Gate.cadd cw l1 l2) s := by
  have hnd2 : (l1 ++ l2 ++ [cw]).Nodup := by
    refine List.Nodup.append hnd (List.nodup_singleton cw) ?_
    intro a ha hb
    rw [List.mem_singleton] at hb
    exact hcw (hb ▸ ha)
  have hlen : (l1 ++ l2 ++ [cw]).length = 2 * N + 1 := by
    rw [List.length_append, List.length_append, h1, h2]
    show N + N + 1 = 2 * N + 1
    omega
  have hok : ∀ g ∈ ctrlAddGates N, elemB g = true ∧ gTgt g < (l1 ++ l2 ++ [cw]).length ∧
      ∀ c ∈ gCtrls g, c < (l1 ++ l2 ++ [cw]).length :=
    fun g hg => hlen ▸ gateOk_dest (ctrlAdd_gates_ok N hN g hg)
  rw [conj_run _ hnd2 (ctrlAddGates N) hok s]
  have hxlt : readBits l1 s < 2 ^ N := by
    rw [← h1]
    exact readBits_lt l1 s
  have hylt : readBits l2 s < 2 ^ N := by
    rw [← h2]
    exact readBits_lt l2 s
  have hreadc : readBits [cw] s = (s.testBit cw).toNat := by
    show (s.testBit cw).toNat + 2 * readBits [] s = (s.testBit cw).toNat
    show (s.testBit cw).toNat + 2 * 0 = (s.testBit cw).toNat
    omega
  have hread : readBits (l1 ++ l2 ++ [cw]) s
      = readBits l1 s + 2 ^ N * readBits l2 s + 2 ^ (2 * N) * (s.testBit cw).toNat := by
    rw [readBits_append (l1 ++ l2) [cw], readBits_append l1 l2, hreadc, h1,
      List.length_append, h1, h2]
    have he : N + N = 2 * N := by omega
    rw [he]
  have hp2 : (2 : Nat) ^ (2 * N) = 2 ^ N * 2 ^ N := by
    rw [two_mul, pow_add]
  by_cases hc : s.testBit cw
  · -- control set: the fragment adds
    rw [hread, hc]
    rw [ctrlAdd_sem N hN _ _ hxlt hylt true]
    have e2 : (if (true : Bool) then (readBits l1 s + readBits l2 s) % 2 ^ N
        else readBits l2 s) = (readBits l1 s + readBits l2 s) % 2 ^ N := rfl
    rw [e2]
    have hblt : (readBits l1 s + readBits l2 s) % 2 ^ N < 2 ^ N :=
      Nat.mod_lt _ (by positivity)
    have hxy : readBits l1 s + 2 ^ N * ((readBits l1 s + readBits l2 s) % 2 ^ N)
        < 2 ^ (2 * N) := by
      calc readBits l1 s + 2 ^ N * ((readBits l1 s + readBits l2 s) % 2 ^ N)
          < 2 ^ N * (1 + (readBits l1 s + readBits l2 s) % 2 ^ N) := by
            rw [Nat.mul_add, Nat.mul_one]
            omega
        _ ≤ 2 ^ N * 2 ^ N := Nat.mul_le_mul_left _ (by omega)
        _ = 2 ^ (2 * N) := hp2.symm
    rw [writeBits_append (l1 ++ l2) [cw], List.length_append, h1, h2]
    have he : N + N = 2 * N := by omega
    rw [he]
    have hudiv : (readBits l1 s + 2 ^ N * ((readBits l1 s + readBits l2 s) % 2 ^ N)
        + 2 ^ (2 * N) * Bool.toNat true) / 2 ^ (2 * N) = Bool.toNat true := by
      rw [Nat.add_mul_div_left _ _ (by positivity), Nat.div_eq_of_lt hxy, Nat.zero_add]
    rw [hudiv]
    have hwc : ∀ X : Nat, X.testBit cw = true →
        writeBits [cw] (Bool.toNat true) X = X := by
      intro X hX
      show writeBits [] (Bool.toNat true / 2)
        (setBit X cw (Bool.toNat true % 2 = 1)) = X
      show setBit X cw (decide (Bool.toNat true % 2 = 1)) = X
      have hd : decide (Bool.toNat true % 2 = 1) = X.testBit cw := by
        rw [hX]
        rfl
      rw [hd, setBit_self]
    rw [hwc _ (by rw [testBit_writeBits_notMem (l1 ++ l2) hcw]; exact hc)]
    rw [writeBits_append l1 l2, h1]
    have hrwu : readBits l1 s + 2 ^ N * ((readBits l1 s + readBits l2 s) % 2 ^ N)
        + 2 ^ (2 * N) * Bool.toNat true
        = readBits l1 s + 2 ^ N * ((readBits l1 s + readBits l2 s) % 2 ^ N
            + 2 ^ N * Bool.toNat true) := by
      rw [hp2]
      ring
    have hudiv2 : (readBits l1 s + 2 ^ N * ((readBits l1 s + readBits l2 s) % 2 ^ N)
        + 2 ^ (2 * N) * Bool.toNat true) / 2 ^ N
        = (readBits l1 s + readBits l2 s) % 2 ^ N + 2 ^ N * Bool.toNat true := by
      rw [hrwu, Nat.add_mul_div_left _ _ (by positivity), Nat.div_eq_of_lt hxlt,
        Nat.zero_add]
    have humod : writeBits l1 (readBits l1 s + 2 ^ N * ((readBits l1 s + readBits l2 s) % 2 ^ N)
        + 2 ^ (2 * N) * Bool.toNat true) s = writeBits l1 (readBits l1 s) s := by
      apply writeBits_congr
      rw [h1, hrwu, Nat.add_mul_mod_self_left]
    rw [hudiv2, humod, writeBits_readBits_self l1 s]
    have hmod2 : writeBits l2 ((readBits l1 s + readBits l2 s) % 2 ^ N
        + 2 ^ N * Bool.toNat true) s
        = writeBits l2 ((readBits l1 s + readBits l2 s) % 2 ^ N) s := by
      apply writeBits_congr
      rw [h2, Nat.add_mul_mod_self_left]
    rw [hmod2]
    show writeBits l2 ((readBits l1 s + readBits l2 s) % 2 ^ N) s
      = if s.testBit cw then
          writeBits l2 ((readBits l1 s + readBits l2 s) % 2 ^ l2.length) s
        else s
    rw [if_pos hc, h2]
  · -- control clear: identity
    rw [hread]
    have hc0 : s.testBit cw = false := by
      cases h : s.testBit cw
      · rfl
      · exact absurd h hc
    rw [hc0]
    rw [ctrlAdd_sem N hN _ _ hxlt hylt false]
    have e2 : (if (false : Bool) then (readBits l1 s + readBits l2 s) % 2 ^ N
        else readBits l2 s) = readBits l2 s := rfl
    rw [e2]
    have hxy : readBits l1 s + 2 ^ N * readBits l2 s < 2 ^ (2 * N) := by
      calc readBits l1 s + 2 ^ N * readBits l2 s
          < 2 ^ N * (1 + readBits l2 s) := by
            rw [Nat.mul_add, Nat.mul_one]
            omega
        _ ≤ 2 ^ N * 2 ^ N := Nat.mul_le_mul_left _ (by omega)
        _ = 2 ^ (2 * N) := hp2.symm
    rw [writeBits_append (l1 ++ l2) [cw], List.length_append, h1, h2]
    have he : N + N = 2 * N := by omega
    rw [he]
    have hudiv : (readBits l1 s + 2 ^ N * readBits l2 s
        + 2 ^ (2 * N) * Bool.toNat false) / 2 ^ (2 * N) = Bool.toNat false := by
      rw [Nat.add_mul_div_left _ _ (by positivity), Nat.div_eq_of_lt hxy, Nat.zero_add]
    rw [hudiv]
    have hwc : ∀ X : Nat, X.testBit cw = false →
        writeBits [cw] (Bool.toNat false) X = X := by
      intro X hX
      show writeBits [] (Bool.toNat false / 2)
        (setBit X cw (Bool.toNat false % 2 = 1)) = X
      show setBit X cw (decide (Bool.toNat false % 2 = 1)) = X
      have hd : decide (Bool.toNat false % 2 = 1) = X.testBit cw := by
        rw [hX]
        rfl
      rw [hd, setBit_self]
    rw [hwc _ (by rw [testBit_writeBits_notMem (l1 ++ l2) hcw]; exact hc0)]
    rw [writeBits_append l1 l2, h1]
    have hrwu : readBits l1 s + 2 ^ N * readBits l2 s + 2 ^ (2 * N) * Bool.toNat false
        = readBits l1 s + 2 ^ N * (readBits l2 s + 2 ^ N * Bool.toNat false) := by
      rw [hp2]
      ring
    have hudiv2 : (readBits l1 s + 2 ^ N * readBits l2 s
        + 2 ^ (2 * N) * Bool.toNat false) / 2 ^ N
        = readBits l2 s + 2 ^ N * Bool.toNat false := by
      rw [hrwu, Nat.add_mul_div_left _ _ (by positivity), Nat.div_eq_of_lt hxlt,
        Nat.zero_add]
    have humod : writeBits l1 (readBits l1 s + 2 ^ N * readBits l2 s
        + 2 ^ (2 * N) * Bool.toNat false) s = writeBits l1 (readBits l1 s) s := by
      apply writeBits_congr
      rw [h1, hrwu, Nat.add_mul_mod_self_left]
    rw [hudiv2, humod, writeBits_readBits_self l1 s]
    have hmod2 : writeBits l2 (readBits l2 s + 2 ^ N * Bool.toNat false) s
        = writeBits l2 (readBits l2 s) s := by
      apply writeBits_congr
      rw [h2, Nat.add_mul_mod_self_left]
    rw [hmod2, writeBits_readBits_self l2 s]
    show s = if s.testBit cw then
        writeBits l2 ((readBits l1 s + readBits l2 s) % 2 ^ l2.length) s
      else s
    rw [if_neg hc]

theorem bWires_length (N : Nat) : (bWires N).length = N := by
  simp [bWires]

theorem aWires_length (N : Nat) : (aWires N).length = N := by
  simp [aWires]

theorem yWires_length (N i : Nat) (hi : i ≤ N) : (yWires N i).length = N := by
  simp [yWires]
  omega

theorem yWires_nodup (N i : Nat) (hi : i ≤ N) : (yWires N i).Nodup := by
  rw [yWires]
  refine List.Nodup.append (List.nodup_range' _ _) (List.nodup_range' _ _) ?_
  intro a ha hb
  rw [List.mem_range'_1] at ha hb
  omega

theorem by_nodup (N i : Nat) (hi : i ≤ N) : (bWires N ++ yWires N i).Nodup := by
  refine List.Nodup.append ?_ (yWires_nodup N i hi) ?_
  · rw [bWires]
    exact List.nodup_range' _ _
  · intro a ha hb
    rw [bWires, List.mem_range'_1] at ha
    rw [yWires, List.mem_append, List.mem_range'_1, List.mem_range'_1] at hb
    omega

theorem ba_nodup (N : Nat) : (bWires N ++ aWires N).Nodup := by
  refine List.Nodup.append ?_ ?_ ?_
  · rw [bWires]
    exact List.nodup_range' _ _
  · rw [aWires]
    exact List.nodup_range _
  · intro a ha hb
    rw [bWires, List.mem_range'_1] at ha
    rw [aWires, List.mem_range] at hb
    omega

theorem iter_cw_notMem (N i : Nat) (_hi1 : 1 ≤ i) (hi2 : i ≤ N) :
    2 * N + (N - i) ∉ bWires N ++ yWires N i := by
  intro h
  rw [List.mem_append, bWires, List.mem_range'_1, yWires, List.mem_append,
    List.mem_range'_1, List.mem_range'_1] at h
  omega

theorem final_cw_notMem (N : Nat) (hN : 1 ≤ N) : 2 * N ∉ bWires N ++ aWires N := by
  intro h
  rw [List.mem_append, bWires, List.mem_range'_1, aWires, List.mem_range] at h
  omega

theorem iter_equiv (N : Nat) (hN : 1 ≤ N) (i : Nat) (hi1 : 1 ≤ i) (hi2 : i ≤ N - 1)
    (s : Nat) :
    applyGates (dividerIter N true i) s = applyGates (dividerIter N false i) s := by
  have hiN : i ≤ N := by omega
  have hyl : (yWires N i).length = N := yWires_length N i hiN
  have hbl : (bWires N).length = N := bWires_length N
  have hnd := by_nodup N i hiN
  have hcw := iter_cw_notMem N i hi1 hiN
  have hitT : dividerIter N true i
      = (yWires N i).map Gate.x ++
        remapGates (bWires N ++ yWires N i) (draperAdd N) ++
        (yWires N i).map Gate.x ++
        [Gate.cx ((yWires N i).getD (N - 1) 0) (2 * N + (N - i))] ++
        remapGates ([2 * N + (N - i)] ++ bWires N ++ yWires N i) (draperCAdd N) ++
        [Gate.x (2 * N + (N - i))] := rfl
  have hitF : dividerIter N false i
      = (yWires N i).map Gate.x ++
        remapGates (bWires N ++ yWires N i) (adderGates N) ++
        (yWires N i).map Gate.x ++
        [Gate.cx ((yWires N i).getD (N - 1) 0) (2 * N + (N - i))] ++
        remapGates (bWires N ++ yWires N i ++ [2 * N + (N - i)]) (ctrlAddGates N) ++
        [Gate.x (2 * N + (N - i))] := rfl
  rw [hitT, hitF]
  simp only [applyGates_append]
  rw [add_site N hN (bWires N) (yWires N i) hbl hyl hnd,
    cadd_site N hN (bWires N) (yWires N i) (2 * N + (N - i)) hbl hyl hnd hcw,
    remap_draperAdd N (bWires N) (yWires N i) hbl hyl,
    remap_draperCAdd N (2 * N + (N - i)) (bWires N) (yWires N i) hbl hyl]
  simp only [applyGates_cons, applyGates_nil]

theorem final_equiv (N : Nat) (hN : 1 ≤ N) (s : Nat) :
    applyGates (dividerFinal N true) s = applyGates (dividerFinal N false) s := by
  have hal : (aWires N).length = N := aWires_length N
  have hbl : (bWires N).length = N := bWires_length N
  have hnd := ba_nodup N
  have hcw := final_cw_notMem N hN
  have hitT : dividerFinal N true
      = (aWires N).map Gate.x ++
        remapGates (bWires N ++ aWires N) (draperAdd N) ++
        (aWires N).map Gate.x ++
        [Gate.cx (N - 1) (2 * N)] ++
        remapGates ([2 * N] ++ bWires N ++ aWires N) (draperCAdd N) ++
        [Gate.x (2 * N)] := rfl
  have hitF : dividerFinal N false
      = (aWires N).map Gate.x ++
        remapGates (bWires N ++ aWires N) (adderGates N) ++
        (aWires N).map Gate.x ++
        [Gate.cx (N - 1) (2 * N)] ++
        remapGates (bWires N ++ aWires N ++ [2 * N]) (ctrlAddGates N) ++
        [Gate.x (2 * N)] := rfl
  rw [hitT, hitF]
  simp only [applyGates_append]
  rw [add_site N hN (bWires N) (aWires N) hbl hal hnd,
    cadd_site N hN (bWires N) (aWires N) (2 * N) hbl hal hnd hcw,
    remap_draperAdd N (bWires N) (aWires N) hbl hal,
    remap_draperCAdd N (2 * N) (bWires N) (aWires N) hbl hal]
  simp only [applyGates_cons, applyGates_nil]

theorem divider_equiv (N : Nat) (hN : 1 ≤ N) (s : Nat) :
    applyGates (dividerGates N true) s = applyGates (dividerGates N false) s := by
  rw [dividerGates, dividerGates, applyGates_append, applyGates_append]
  have hloop : ∀ l : List Nat, (∀ i ∈ l, 1 ≤ i ∧ i ≤ N - 1) → ∀ t,
      applyGates ((l.map (dividerIter N true)).flatten) t
        = applyGates ((l.map (dividerIter N false)).flatten) t := by
    intro l
    induction l with
    | nil => intro _ t; rfl
    | cons j l ih =>
        intro hmem t
        rw [List.map_cons, List.map_cons, List.flatten_cons, List.flatten_cons,
          applyGates_append, applyGates_append]
        obtain ⟨hj1, hj2⟩ := hmem j (List.mem_cons_self _ _)
        rw [iter_equiv N hN j hj1 hj2 t]
        exact ih (fun k hk => hmem k (List.mem_cons_of_mem _ hk)) _
  rw [hloop (List.range' 1 (N - 1))
    (fun k hk => by rw [List.mem_range'_1] at hk; omega) s]
  exact final_equiv N hN _

/-- C8: for every width `N ≥ 1`, both paths of `long_division_divider` build a
circuit, and the circuit built with the Fourier-transform adder substituted at
every adder and controlled-adder call site (control wire first in the appended
wire list) computes exactly the same state transformation — hence the same
quotient and remainder — as the ripple-carry circuit (control wire last). -/
theorem c8_draper_equiv (N : Nat) (hN : 1 ≤ N) (s : Nat) :
    long_division_divider N true = .ok (dividerGates N true) ∧
    long_division_divider N false = .ok (dividerGates N false) ∧
    applyGates (dividerGates N true) s = applyGates (dividerGates N false) s := by
  refine ⟨?_, ?_, divider_equiv N hN s⟩
  · unfold long_division_divider
    rw [if_neg (show ¬N = 0 by omega)]
  · unfold long_division_divider
    rw [if_neg (show ¬N = 0 by omega)]

/-- Witness for C8 at `N = 2`, packed state `13` (`a = 1, b = 3, r = 0`). -/
theorem c8_draper_equiv_witness :
    long_division_divider 2 true = .ok (dividerGates 2 true) ∧
    long_division_divider 2 false = .ok (dividerGates 2 false) ∧
    applyGates (dividerGates 2 true) 13 = applyGates (dividerGates 2 false) 13 :=
  c8_draper_equiv 2 (by decide) 13
